import Mathlib

/-!
Verification of the `BoundingCage` core of michizhou/unwind
(src/src/ui/bounding_cage.h).

The geometry is embedded over `ℚ` (the C++ uses `double`; every claim here
is about the exact algebraic value computed, not about rounding).  Methods
whose bodies are inlined in the header (`transform`, `vertices_3d`, the
accessors, `clear`, `min_index`, `max_index`, the iterators) are translated
directly from that source.  Methods only declared in the header (their
definitions live in a `.cpp` file that is not part of the sources) are
modelled from the specification and carry a doc comment saying so.
-/

namespace Unwind

/-- A 2D point with rational coordinates (an `Eigen::RowVector2d`). -/
structure Vec2 where
  x : ℚ
  y : ℚ
deriving DecidableEq, Repr

/-- A 3D point with rational coordinates (an `Eigen::RowVector3d`). -/
structure Vec3 where
  x : ℚ
  y : ℚ
  z : ℚ
deriving DecidableEq, Repr

/-- Componentwise addition of 3D vectors. -/
def Vec3.add (a b : Vec3) : Vec3 :=
  ⟨a.x + b.x, a.y + b.y, a.z + b.z⟩

/-- Scalar multiple of a 3D vector. -/
def Vec3.smul (s : ℚ) (a : Vec3) : Vec3 :=
  ⟨s * a.x, s * a.y, s * a.z⟩

/-- A 3×3 matrix stored as its three rows (an `Eigen::Matrix3d`). -/
structure Mat3 where
  r0 : Vec3
  r1 : Vec3
  r2 : Vec3
deriving DecidableEq, Repr

/-- A homogeneous 4-vector. -/
structure Vec4 where
  x : ℚ
  y : ℚ
  z : ℚ
  w : ℚ
deriving DecidableEq, Repr

/-- A 4×4 matrix stored as its four rows (an `Eigen::Matrix4d`). -/
structure Mat4 where
  r0 : Vec4
  r1 : Vec4
  r2 : Vec4
  r3 : Vec4
deriving DecidableEq, Repr

/-- An `Eigen::MatrixX4d` — a matrix with a dynamic number of rows and 4
columns — represented as its list of rows.  Default construction
(`Eigen::MatrixX4d ret;`) yields the empty list: 0 rows. -/
def MatDynX4 : Type := List Vec4

/-- `m.setZero()` on a dynamic matrix: zeroes every entry while keeping
the current (dynamic) row count. -/
def mdynSetZero (m : List Vec4) : List Vec4 :=
  m.map fun _ => ⟨0, 0, 0, 0⟩

/-- `m.block<3,3>(0,0) = b` on a dynamic-rows × 4 matrix: writes the 3×3
block into columns 0–2 of rows 0–2.  Eigen asserts that the block lies
inside the matrix, so with fewer than 3 rows there is no result. -/
def mdynWriteBlock33 (m : List Vec4) (b : Mat3) : Option (List Vec4) :=
  match m with
  | r0 :: r1 :: r2 :: rest =>
      some (⟨b.r0.x, b.r0.y, b.r0.z, r0.w⟩ ::
            ⟨b.r1.x, b.r1.y, b.r1.z, r1.w⟩ ::
            ⟨b.r2.x, b.r2.y, b.r2.z, r2.w⟩ :: rest)
  | _ => none

/-- `m.block<3,1>(0,3) = c` : writes the 3×1 block into column 3 of rows
0–2; fails Eigen's size assertion with fewer than 3 rows. -/
def mdynWriteCol3 (m : List Vec4) (c : Vec3) : Option (List Vec4) :=
  match m with
  | r0 :: r1 :: r2 :: rest =>
      some (⟨r0.x, r0.y, r0.z, c.x⟩ ::
            ⟨r1.x, r1.y, r1.z, c.y⟩ ::
            ⟨r2.x, r2.y, r2.z, c.z⟩ :: rest)
  | _ => none

/-- `m(3,3) = v` : writes the entry at row 3, column 3; fails Eigen's
bounds assertion with fewer than 4 rows. -/
def mdynWriteEntry33 (m : List Vec4) (v : ℚ) : Option (List Vec4) :=
  match m with
  | r0 :: r1 :: r2 :: r3 :: rest =>
      some (r0 :: r1 :: r2 :: ⟨r3.x, r3.y, r3.z, v⟩ :: rest)
  | _ => none

/-- Conversion of a dynamic-rows × 4 matrix to the fixed `Eigen::Matrix4d`
(the declared return type of `transform()`): Eigen asserts that the
dynamic matrix is exactly 4×4. -/
def mdynToMat4 : List Vec4 → Option Mat4
  | [r0, r1, r2, r3] => some ⟨r0, r1, r2, r3⟩
  | _ => none

/-- The state of a `BoundingCage::KeyFrame` that its inlined const methods
read: the orientation matrix (rows = right / up / normal), the center,
the local 2D boundary polygon, the mesh-vertex index slice and the index
value (fields `_orientation`, `_center`, `_vertices_2d`,
`_mesh_vertex_indices`, `_index` of bounding_cage.h). -/
structure KeyFrame where
  orientationM : Mat3
  centerV : Vec3
  vertices2dL : List Vec2
  meshVertexIndices : List ℕ
  indexV : ℚ
deriving DecidableEq, Repr

namespace KeyFrame

/-- `KeyFrame::normal()`: row 2 of `_orientation`. -/
def normal (kf : KeyFrame) : Vec3 := kf.orientationM.r2

/-- `KeyFrame::up()`: row 1 of `_orientation`. -/
def up (kf : KeyFrame) : Vec3 := kf.orientationM.r1

/-- `KeyFrame::right()`: row 0 of `_orientation`. -/
def right (kf : KeyFrame) : Vec3 := kf.orientationM.r0

/-- `KeyFrame::orientation()`: the `_orientation` field. -/
def orientation (kf : KeyFrame) : Mat3 := kf.orientationM

/-- `KeyFrame::center()`: the `_center` field. -/
def center (kf : KeyFrame) : Vec3 := kf.centerV

/-- `KeyFrame::vertices_2d()`: the `_vertices_2d` field. -/
def vertices_2d (kf : KeyFrame) : List Vec2 := kf.vertices2dL

/-- `KeyFrame::index()`: the `_index` field. -/
def index (kf : KeyFrame) : ℚ := kf.indexV

/-- `KeyFrame::in_bounding_cage()`: `_mesh_vertex_indices.rows() != 0`. -/
def in_bounding_cage (kf : KeyFrame) : Bool :=
  kf.meshVertexIndices.length != 0

/-- `KeyFrame::transform()` (bounding_cage.h:326-333), translated
statement by statement: `Eigen::MatrixX4d ret;` default-constructs a 0×4
dynamic-rows matrix, `ret.setZero();` keeps its 0 rows, and then
`ret.block<3,3>(0,0) = _orientation;`,
`ret.block<3,1>(0,3) = _center.transpose();`, `ret(3,3) = 1.0;` and the
conversion of `ret` to the declared `Eigen::Matrix4d` return type each
require rows the matrix does not have.  A failed Eigen size assertion
(an out-of-bounds write when assertions are compiled out) aborts the
call, modelled as `none`. -/
def transform (kf : KeyFrame) : Option Mat4 :=
  let ret : List Vec4 := []
  let ret := mdynSetZero ret
  (mdynWriteBlock33 ret kf.orientationM).bind fun ret =>
    (mdynWriteCol3 ret kf.centerV).bind fun ret =>
      (mdynWriteEntry33 ret 1).bind fun ret =>
        mdynToMat4 ret

/-- `KeyFrame::vertices_3d()` (bounding_cage.h:344-350): row `i` is
`_center + _vertices_2d(i,0) * _orientation.row(0) + _vertices_2d(i,1) * _orientation.row(1)`. -/
def vertices_3d (kf : KeyFrame) : List Vec3 :=
  kf.vertices2dL.map fun p =>
    Vec3.add (Vec3.add kf.centerV (Vec3.smul p.x kf.orientationM.r0))
      (Vec3.smul p.y kf.orientationM.r1)

end KeyFrame

/-- A concrete keyframe whose orientation is the 90° rotation frame
right = (0,1,0), up = (−1,0,0), normal = (0,0,1) — a legitimate
right-handed orthonormal frame — centered at the origin, with the single
boundary point (1, 0). -/
def kfRot : KeyFrame :=
  { orientationM :=
      { r0 := ⟨0, 1, 0⟩
        r1 := ⟨-1, 0, 0⟩
        r2 := ⟨0, 0, 1⟩ }
    centerV := ⟨0, 0, 0⟩
    vertices2dL := [⟨1, 0⟩]
    meshVertexIndices := []
    indexV := 0 }

/-! ### Pointer model of cells, keyframes and their iterators

`shared_ptr`/`weak_ptr` links of bounding_cage.h are modelled by natural
number addresses into a heap of objects; `weak_ptr::lock()` is a heap
lookup that can fail (expired or never-set pointer). -/

/-- The linkage fields of a `BoundingCage::Cell`: the `left_keyframe` /
`right_keyframe` shared pointers and the `next_cell` / `prev_cell`
leaf-list links. -/
structure CellObj where
  left_keyframe : ℕ
  right_keyframe : ℕ
  next_cell : Option ℕ
  prev_cell : Option ℕ
deriving DecidableEq, Repr

/-- A heap-allocated `KeyFrame`: its value fields (`geom`) together with
the `_cells` array of weak pointers to the bounding cells
(`cells0` = `_cells[0]`, the left cell; `cells1` = `_cells[1]`, the
right cell). -/
structure KFObj where
  geom : KeyFrame
  cells0 : Option ℕ
  cells1 : Option ℕ
deriving DecidableEq, Repr

/-- The heap of live `Cell` and `KeyFrame` objects, addressed by ℕ. -/
structure Heap where
  cells : List (ℕ × CellObj)
  kfs : List (ℕ × KFObj)
deriving DecidableEq, Repr

/-- Dereference a (possibly dangling) cell pointer; this is what
`weak_ptr<Cell>::lock()` returns. -/
def Heap.lockCell (h : Heap) (p : ℕ) : Option CellObj :=
  (h.cells.find? (fun e => e.1 == p)).map Prod.snd

/-- Dereference a keyframe pointer. -/
def Heap.getKF (h : Heap) (p : ℕ) : Option KFObj :=
  (h.kfs.find? (fun e => e.1 == p)).map Prod.snd

/-- `KeyFrameIterator::operator++` (bounding_cage.h:384-392), as a total
function: the C++ body evaluates `keyframe->_cells[1].lock()` before
testing `keyframe` for null, so on the end iterator (null `keyframe`) the
behaviour is the undefined null dereference, modelled as `none`; otherwise
`right_cell = _cells[1].lock()`, and the iterator moves to
`right_cell->right_keyframe` when the lock succeeds and is reset to the
end iterator when it does not. -/
def kfIterSucc (h : Heap) : Option ℕ → Option (Option ℕ)
  | none => none
  | some k =>
    match h.getKF k with
    | none => none
    | some kfo =>
      match kfo.cells1.bind h.lockCell with
      | some c => some (some c.right_keyframe)
      | none => some none

/-- `KeyFrameIterator::operator--` (bounding_cage.h:398-406), the mirror
image of `operator++`: it dereferences `keyframe->_cells[0].lock()` first,
moves to `left_cell->left_keyframe` when the lock succeeds and resets to
the end iterator when it does not. -/
def kfIterPred (h : Heap) : Option ℕ → Option (Option ℕ)
  | none => none
  | some k =>
    match h.getKF k with
    | none => none
    | some kfo =>
      match kfo.cells0.bind h.lockCell with
      | some c => some (some c.left_keyframe)
      | none => some none

/-- The keyframe at address 0 of the witness heap: index 0, no left cell,
right cell at address 0. -/
def kfObjW0 : KFObj :=
  { geom := { kfRot with indexV := 0 }, cells0 := none, cells1 := some 0 }

/-- The single cell of the witness heap, spanning keyframes 0 and 1. -/
def cellObjW : CellObj :=
  { left_keyframe := 0, right_keyframe := 1,
    next_cell := none, prev_cell := none }

/-- A two-keyframe, one-cell heap: the state right after
`set_skeleton_vertices` installs the root cell. -/
def heapW : Heap :=
  { cells := [(0, cellObjW)]
    kfs := [(0, kfObjW0),
            (1, { geom := { kfRot with indexV := 4 },
                  cells0 := some 0, cells1 := none })] }

/-! ### The BoundingCage state: clear, mesh accessors, min/max index -/

/-- The fields of a `BoundingCage` read by its inlined methods: the raw
and smoothed skeleton vertices `SV` / `SV_smooth`, the root pointer, the
leaf-list head and tail of the `cells` member, the heap of live objects,
the global mesh buffers `CV` / `CF` and the valid-range counters
`num_mesh_vertices` / `num_mesh_faces`. -/
structure CageState where
  SV : List Vec3
  SV_smooth : List Vec3
  root : Option ℕ
  cellsHead : Option ℕ
  cellsTail : Option ℕ
  heap : Heap
  CV : List Vec3
  CF : List (ℕ × ℕ × ℕ)
  num_mesh_vertices : ℕ
  num_mesh_faces : ℕ
deriving DecidableEq, Repr

/-- `BoundingCage::clear()` (bounding_cage.h:481-491): resets the root,
the leaf-list head and tail, both skeleton matrices, both mesh buffers and
both counters. -/
def BoundingCage.clear (s : CageState) : CageState :=
  { s with
    root := none
    cellsHead := none
    cellsTail := none
    SV := []
    SV_smooth := []
    CV := []
    CF := []
    num_mesh_faces := 0
    num_mesh_vertices := 0 }

/-- `BoundingCage::vertices()` (bounding_cage.h:507): the block of the
first `num_mesh_vertices` rows of `CV`. -/
def BoundingCage.vertices (s : CageState) : List Vec3 :=
  s.CV.take s.num_mesh_vertices

/-- `BoundingCage::faces()` (bounding_cage.h:508): the block of the first
`num_mesh_faces` rows of `CF`. -/
def BoundingCage.faces (s : CageState) : List (ℕ × ℕ × ℕ) :=
  s.CF.take s.num_mesh_faces

/-- `Cells::begin()`: a `CellIterator` holding the leaf-list head. -/
def cellsBegin (s : CageState) : Option ℕ := s.cellsHead

/-- `Cells::end()`: the null `CellIterator`. -/
def cellsEnd : Option ℕ := none

/-- `KeyFrames::begin()` (bounding_cage.h:438-444): an iterator at
`cells.head->left_keyframe` when the head exists (the dereference is
modelled by the heap lookup), the end iterator otherwise. -/
def keyframesBegin (s : CageState) : Option ℕ :=
  match s.cellsHead with
  | some hp => (s.heap.lockCell hp).map CellObj.left_keyframe
  | none => none

/-- `KeyFrames::end()`: the null `KeyFrameIterator`. -/
def keyframesEnd : Option ℕ := none

/-- `Cell::min_index()` (bounding_cage.h:142): `left_keyframe->index()`;
the dereference is modelled by the heap lookup. -/
def Cell.min_index (h : Heap) (c : CellObj) : Option ℚ :=
  (h.getKF c.left_keyframe).map fun kfo => kfo.geom.indexV

/-- `Cell::max_index()` (bounding_cage.h:143): `right_keyframe->index()`. -/
def Cell.max_index (h : Heap) (c : CellObj) : Option ℚ :=
  (h.getKF c.right_keyframe).map fun kfo => kfo.geom.indexV

/-- `BoundingCage::min_index()` (bounding_cage.h:512-518): 0.0 when the
root pointer is null, `root->min_index()` otherwise (pointer dereferences
modelled by heap lookups, defaulting only off the live-pointer case the
C++ relies on). -/
def BoundingCage.min_index (s : CageState) : ℚ :=
  match s.root with
  | none => 0
  | some r => (((s.heap.lockCell r).bind (Cell.min_index s.heap)).getD 0)

/-- `BoundingCage::max_index()` (bounding_cage.h:522-528): 0.0 when the
root pointer is null, `root->max_index()` otherwise. -/
def BoundingCage.max_index (s : CageState) : ℚ :=
  match s.root with
  | none => 0
  | some r => (((s.heap.lockCell r).bind (Cell.max_index s.heap)).getD 0)

/-- A concrete initialized cage over the witness heap `heapW`: root is
cell 0, spanning keyframe 0 (index 0) and keyframe 1 (index 4). -/
def cageW : CageState :=
  { SV := []
    SV_smooth := []
    root := some 0
    cellsHead := some 0
    cellsTail := some 0
    heap := heapW
    CV := []
    CF := []
    num_mesh_vertices := 0
    num_mesh_faces := 0 }

/-! ### Spec-modelled split algorithm over the leaf list

The bodies of `BoundingCage::split`, `BoundingCage::split_internal` and
`Cell::split` are declared in bounding_cage.h but defined in a `.cpp`
translation unit that is not among the sources, so the split algorithm is
modelled from the specification (§4.3, §4.5, §7, §8).  A leaf cell is
abstracted to its pair of boundary keyframe indices and the cage to its
leaf list in linked order, its polygon size and the two mesh counters. -/

/-- A leaf cell, reduced to the indices of its left and right boundary
keyframes (`left_keyframe->index()` and `right_keyframe->index()`). -/
structure LCell where
  left : ℚ
  right : ℚ
deriving DecidableEq, Repr

/-- Modelled from the spec: the abstract state of a `BoundingCage` that
the split operations touch — the leaf cells in linked-list order, the
boundary-polygon vertex count, and the `num_mesh_vertices` /
`num_mesh_faces` counters. -/
structure MCage where
  leaves : List LCell
  nPoly : ℕ
  meshV : ℕ
  meshF : ℕ
deriving DecidableEq, Repr

/-- Modelled from the spec (§4.3): `Cell::split` recursing to the leaf
whose index range strictly contains `t` and replacing that leaf by the two
child cells `(left, t)` and `(t, right)` threaded in its place; `none`
when no leaf strictly contains `t` (the *OutOfRange* failure). -/
def splitLeaves : List LCell → ℚ → Option (List LCell)
  | [], _ => none
  | c :: rest, t =>
    if c.left < t ∧ t < c.right then
      some (⟨c.left, t⟩ :: ⟨t, c.right⟩ :: rest)
    else
      (splitLeaves rest t).map (fun L2 => c :: L2)

/-- Modelled from the spec (§4.5, §8): `BoundingCage::split(double)` —
on success the containing leaf is split in two and the mesh gains one new
cross-section's worth of boundary geometry (one polygon ring of vertices
and its side triangles); on failure the state is returned unchanged and
the end iterator (here `false`) is reported. -/
def cageSplit (s : MCage) (t : ℚ) : Bool × MCage :=
  match splitLeaves s.leaves t with
  | none => (false, s)
  | some L2 =>
      (true, { s with leaves := L2, meshV := s.meshV + s.nPoly,
                      meshF := s.meshF + 2 * s.nPoly })

/-- `min_index()` in the leaf-list abstraction: the left index of the
first leaf (equal to the root's left index), 0 when uninitialized. -/
def MCage.minIdx (s : MCage) : ℚ :=
  ((s.leaves.head?).map LCell.left).getD 0

/-- `max_index()` in the leaf-list abstraction: the right index of the
last leaf, 0 when uninitialized. -/
def MCage.maxIdx (s : MCage) : ℚ :=
  ((s.leaves.getLast?).map LCell.right).getD 0

/-- Modelled from the spec (§4.5, §3): the cage states reachable from
`set_skeleton_vertices` (one root cell spanning the whole curve) by
successful splits. -/
inductive CageReachable : MCage → Prop
  | init (a b : ℚ) (n v f : ℕ) (hab : a < b) :
      CageReachable ⟨[⟨a, b⟩], n, v, f⟩
  | step (s : MCage) (t : ℚ) (s2 : MCage) (hs : CageReachable s)
      (hstep : cageSplit s t = (true, s2)) : CageReachable s2

/-- Adjacent leaves share their boundary keyframe: each leaf's right index
is the next leaf's left index. -/
def ChainedL (L : List LCell) : Prop :=
  List.Chain' (fun c d => c.right = d.left) L

/-- Every leaf's left index is strictly below its right index. -/
def AllLt (L : List LCell) : Prop :=
  ∀ c ∈ L, c.left < c.right

/-- The cage right after `set_skeleton_vertices` with the §8 scenario:
one leaf spanning indices 0..4, a 4-gon template, 8 mesh vertices and 12
mesh faces. -/
def cage0W : MCage := { leaves := [⟨0, 4⟩], nPoly := 4, meshV := 8, meshF := 12 }

/-- The cage of the §8 scenario after `split(2.0)`. -/
def cage1W : MCage :=
  { leaves := [⟨0, 2⟩, ⟨2, 4⟩], nPoly := 4, meshV := 12, meshF := 20 }

/-! ### Pointer-level model of the doubly linked leaf list

For the leaf-list invariant the `prev_cell` / `next_cell` links of
bounding_cage.h:80-81 are modelled concretely: leaf cells live in a heap
addressed by ℕ, forward iteration follows `next_cell` exactly as
`CellIterator::operator++` (bounding_cage.h:161-166) does and backward
iteration follows `prev_cell` exactly as `operator--`
(bounding_cage.h:172-177) does, starting from the `cells.head` /
`cells.tail` pointers of `Cells::begin()` / `Cells::rbegin()`
(bounding_cage.h:209-211).  The splice performed by the absent
`Cell::split` body is modelled from the spec (§4.3 step 2).  A leaf cell
is reduced to its two boundary keyframe indices
(`left_keyframe->index()`, `right_keyframe->index()`) plus its two list
links. -/

/-- A leaf cell as threaded into the leaf list: its boundary keyframe
indices and its `next_cell` / `prev_cell` links. -/
structure LNode where
  leftI : ℚ
  rightI : ℚ
  next_cell : Option ℕ
  prev_cell : Option ℕ
deriving DecidableEq, Repr

/-- The leaf-list portion of a cage: the heap of live leaf cells, the
`cells.head` / `cells.tail` pointers, and the next unused address
(allocation counter). -/
structure LState where
  nodes : ℕ → Option LNode
  head : Option ℕ
  tail : Option ℕ
  fresh : ℕ

/-- Dereference a cell pointer. -/
def LState.get (s : LState) (p : ℕ) : Option LNode := s.nodes p

/-- Heap update at one address. -/
def updNodes (f : ℕ → Option LNode) (p : ℕ) (v : Option LNode) :
    ℕ → Option LNode :=
  fun q => if q = p then v else f q

/-- Redirect the `next_cell` link of the cell at `q?` (no-op when the
pointer is null or dangling). -/
def setNextPtr (f : ℕ → Option LNode) (q? : Option ℕ) (nxt : Option ℕ) :
    ℕ → Option LNode :=
  match q? with
  | none => f
  | some q =>
    match f q with
    | none => f
    | some nq => updNodes f q (some { nq with next_cell := nxt })

/-- Redirect the `prev_cell` link of the cell at `q?`. -/
def setPrevPtr (f : ℕ → Option LNode) (q? : Option ℕ) (prv : Option ℕ) :
    ℕ → Option LNode :=
  match q? with
  | none => f
  | some q =>
    match f q with
    | none => f
    | some nq => updNodes f q (some { nq with prev_cell := prv })

/-- Modelled from the spec (§4.3 step 2): splitting the leaf cell at
address `p` (with value `nd`) at index `t` creates the two child cells
`(leftI, t)` and `(t, rightI)` at fresh addresses and threads them into
the leaf list in place of the split cell: the split cell's `prev` / `next`
links are spliced to the new left / right child respectively, the
neighbors' links (and the list head / tail when the split cell was at an
end) are redirected to the children, and the split cell leaves the leaf
list. -/
def spliceSplit (s : LState) (p : ℕ) (nd : LNode) (t : ℚ) : LState :=
  let p1 := s.fresh
  let p2 := s.fresh + 1
  let f0 := updNodes
    (updNodes (updNodes s.nodes p none)
      p1 (some ⟨nd.leftI, t, some p2, nd.prev_cell⟩))
    p2 (some ⟨t, nd.rightI, nd.next_cell, some p1⟩)
  let f1 := setNextPtr f0 nd.prev_cell (some p1)
  let f2 := setPrevPtr f1 nd.next_cell (some p2)
  { nodes := f2
    head := if s.head = some p then some p1 else s.head
    tail := if s.tail = some p then some p2 else s.tail
    fresh := s.fresh + 2 }

/-- The leaf list right after `set_skeleton_vertices`: one root cell
spanning the whole curve, which is both head and tail. -/
def linit (a b : ℚ) : LState :=
  { nodes := fun q => if q = 0 then some ⟨a, b, none, none⟩ else none
    head := some 0
    tail := some 0
    fresh := 1 }

/-- Iterating forward with `CellIterator::operator++`
(bounding_cage.h:161-166): collect the cell behind the iterator, then
step `cell = cell->next_cell`, stopping at the null (end) iterator.  The
fuel argument bounds the walk; in well-formed states `s.fresh` steps
always suffice. -/
def fwdIter (s : LState) : ℕ → Option ℕ → List LNode
  | 0, _ => []
  | _, none => []
  | fuel + 1, some p =>
    match s.get p with
    | none => []
    | some nd => nd :: fwdIter s fuel nd.next_cell

/-- Iterating backward with `CellIterator::operator--`
(bounding_cage.h:172-177): step `cell = cell->prev_cell` from
`cells.rbegin()`. -/
def bwdIter (s : LState) : ℕ → Option ℕ → List LNode
  | 0, _ => []
  | _, none => []
  | fuel + 1, some p =>
    match s.get p with
    | none => []
    | some nd => nd :: bwdIter s fuel nd.prev_cell

/-- The full forward iteration `cells.begin()` to `cells.end()`. -/
def forwardList (s : LState) : List LNode := fwdIter s s.fresh s.head

/-- The full backward iteration from `cells.rbegin()`. -/
def backwardList (s : LState) : List LNode := bwdIter s s.fresh s.tail

/-- Modelled from the spec (§4.3, §4.5): the leaf-list states reachable
from initialization by successful splits — `Cell::split` descends to a
leaf cell whose index range strictly contains the new keyframe's index
and splices its two children in its place. -/
inductive LReachable : LState → Prop
  | init (a b : ℚ) (hab : a < b) : LReachable (linit a b)
  | step (s : LState) (p : ℕ) (nd : LNode) (t : ℚ) (hs : LReachable s)
      (hget : s.get p = some nd) (hl : nd.leftI < t) (hr : t < nd.rightI) :
      LReachable (spliceSplit s p nd t)

/-- The heap's leaf cells form a consistent doubly linked chain: starting
at `cur`, the listed address/cell pairs are exactly the cells reached by
`next_cell` links, each cell's `prev_cell` pointing back at its
predecessor (`prev` for the first). -/
inductive CellChain (s : LState) :
    Option ℕ → Option ℕ → List (ℕ × LNode) → Prop
  | nil (prev : Option ℕ) : CellChain s prev none []
  | cons (prev : Option ℕ) (p : ℕ) (nd : LNode) (ps : List (ℕ × LNode))
      (hget : s.get p = some nd) (hprev : nd.prev_cell = prev)
      (htail : CellChain s (some p) nd.next_cell ps) :
      CellChain s prev (some p) ((p, nd) :: ps)

/-- Traversal by `prev_cell` links: from `cur`, the listed pairs are the
cells reached by following `prev_cell`, ending with the link `stop`. -/
def PrevSeg (s : LState) : Option ℕ → List (ℕ × LNode) → Option ℕ → Prop
  | cur, [], stop => cur = stop
  | cur, (p, nd) :: rest, stop =>
      cur = some p ∧ s.get p = some nd ∧ PrevSeg s nd.prev_cell rest stop

/-- Redirect the `next_cell` link of the last pair of a list (the splice's
update of the split cell's left neighbor). -/
def bumpLastNext (xs : List (ℕ × LNode)) (p1 : ℕ) : List (ℕ × LNode) :=
  match xs with
  | [] => []
  | [(q, nq)] => [(q, { nq with next_cell := some p1 })]
  | e :: rest => e :: bumpLastNext rest p1

/-- Redirect the `prev_cell` link of the first pair of a list (the
splice's update of the split cell's right neighbor). -/
def bumpHeadPrev (ys : List (ℕ × LNode)) (p2 : ℕ) : List (ℕ × LNode) :=
  match ys with
  | [] => []
  | (q, nq) :: rest => (q, { nq with prev_cell := some p2 }) :: rest

/-- The index interval of a threaded leaf cell. -/
def cellOf (e : ℕ × LNode) : LCell := ⟨e.2.leftI, e.2.rightI⟩

/-- The index intervals of a threaded chain. -/
def cellsOf (ps : List (ℕ × LNode)) : List LCell := ps.map cellOf

/-- Well-formedness of a leaf-list state: the live cells form exactly one
doubly linked chain from `head` to `tail` with contiguous, properly
ordered index intervals, pairwise distinct addresses below the allocation
counter. -/
def WFL (s : LState) : Prop :=
  ∃ ps : List (ℕ × LNode),
    CellChain s none s.head ps ∧
    s.tail = (ps.getLast?).map Prod.fst ∧
    ps ≠ [] ∧
    ChainedL (cellsOf ps) ∧
    AllLt (cellsOf ps) ∧
    (ps.map Prod.fst).Nodup ∧
    (∀ e ∈ ps, e.1 < s.fresh) ∧
    ps.length ≤ s.fresh ∧
    (∀ a nd0, s.get a = some nd0 → (a, nd0) ∈ ps)

/-- The two-cell leaf list of the §8 scenario: the 0..4 root split at 2. -/
def lcage1W : LState := spliceSplit (linit 0 4) 0 ⟨0, 4, none, none⟩ 2

/-! ### Spec-modelled polygon editing: move_point_2d

`KeyFrame::move_point_2d` and `KeyFrame::validate_points_2d` are declared
in bounding_cage.h (lines 243 and 366) but defined in the missing `.cpp`
translation unit, so they are modelled from the specification (§4.2): a
transactional update of polygon point `i`, validated against local 2D
self-intersection before commit. -/

/-- Twice the signed area of the triangle `p q r` — the standard
orientation test. -/
def orient2d (p q r : Vec2) : ℚ :=
  (q.x - p.x) * (r.y - p.y) - (q.y - p.y) * (r.x - p.x)

/-- Whether the point `r`, known to be collinear with the segment `p q`,
lies within its bounding box. -/
def onSegment (p q r : Vec2) : Bool :=
  decide (min p.x q.x ≤ r.x) && decide (r.x ≤ max p.x q.x) &&
  decide (min p.y q.y ≤ r.y) && decide (r.y ≤ max p.y q.y)

/-- Whether the closed segments `p1 q1` and `p2 q2` intersect (proper
crossing, or an endpoint lying on the other segment). -/
def segmentsIntersect (p1 q1 p2 q2 : Vec2) : Bool :=
  let o1 := orient2d p1 q1 p2
  let o2 := orient2d p1 q1 q2
  let o3 := orient2d p2 q2 p1
  let o4 := orient2d p2 q2 q1
  (decide (o1 * o2 < 0) && decide (o3 * o4 < 0)) ||
  (decide (o1 = 0) && onSegment p1 q1 p2) ||
  (decide (o2 = 0) && onSegment p1 q1 q2) ||
  (decide (o3 = 0) && onSegment p2 q2 p1) ||
  (decide (o4 = 0) && onSegment p2 q2 q1)

/-- The boundary edges of a closed polygon: consecutive vertex pairs,
including the closing edge from the last vertex back to the first. -/
def polyEdges (pts : List Vec2) : List (Vec2 × Vec2) :=
  pts.zip (pts.rotate 1)

/-- Modelled from the spec: `validate_points_2d` fails exactly when some
pair of non-adjacent boundary edges of the polygon intersects — a local
2D self-intersection. -/
def selfIntersects2d (pts : List Vec2) : Bool :=
  let es := polyEdges pts
  let n := es.length
  (List.range n).any fun i =>
    (List.range n).any fun j =>
      decide (i + 1 < j) && !(decide (i = 0) && decide (j + 1 = n)) &&
      segmentsIntersect
        (es.getD i (⟨0, 0⟩, ⟨0, 0⟩)).1 (es.getD i (⟨0, 0⟩, ⟨0, 0⟩)).2
        (es.getD j (⟨0, 0⟩, ⟨0, 0⟩)).1 (es.getD j (⟨0, 0⟩, ⟨0, 0⟩)).2

/-- Modelled from the spec: `KeyFrame::move_point_2d(i, newpos,
validate2d, validate_3d)` — the candidate polygon is computed first; if
`validate2d` and the candidate self-intersects in local 2D coordinates
the keyframe is returned unchanged with failure; if `validate_3d` and the
neighbor check (abstracted as the `check3d` argument, since the
neighboring keyframes are outside this state) fails, likewise; otherwise
the candidate is committed and the call succeeds. -/
def movePoint2d (check3d : KeyFrame → Bool) (kf : KeyFrame) (i : ℕ)
    (newpos : Vec2) (validate2d validate_3d : Bool) : Bool × KeyFrame :=
  let cand : KeyFrame := { kf with vertices2dL := kf.vertices2dL.set i newpos }
  if validate2d && selfIntersects2d cand.vertices2dL then (false, kf)
  else if validate_3d && check3d cand then (false, kf)
  else (true, cand)

/-- A keyframe whose boundary polygon is the unit-side square with corners
(0,0), (2,0), (2,2), (0,2), at the identity frame. -/
def kfSquare : KeyFrame :=
  { orientationM :=
      { r0 := ⟨1, 0, 0⟩
        r1 := ⟨0, 1, 0⟩
        r2 := ⟨0, 0, 1⟩ }
    centerV := ⟨0, 0, 0⟩
    vertices2dL := [⟨0, 0⟩, ⟨2, 0⟩, ⟨2, 2⟩, ⟨0, 2⟩]
    meshVertexIndices := [0, 1, 2, 3]
    indexV := 0 }

/-- C3: row i of `vertices_3d()` equals
`center() + x_i * right() + y_i * up()` where `(x_i, y_i)` is row i of
`vertices_2d()`; `vertices_3d` is a pure function of the keyframe's
fields. -/
theorem keyframe_vertices_3d_projects (kf : KeyFrame) (i : ℕ)
    (h : i < kf.vertices_2d.length) :
    (kf.vertices_3d).getD i ⟨0, 0, 0⟩ =
      Vec3.add
        (Vec3.add kf.center
          (Vec3.smul ((kf.vertices_2d.getD i ⟨0, 0⟩).x) kf.right))
        (Vec3.smul ((kf.vertices_2d.getD i ⟨0, 0⟩).y) kf.up) := by
  unfold KeyFrame.vertices_3d KeyFrame.center KeyFrame.right KeyFrame.up
    KeyFrame.vertices_2d at *
  rw [List.getD_eq_getElem?_getD, List.getD_eq_getElem?_getD,
    List.getElem?_map]
  rw [List.getElem?_eq_getElem h]
  rfl

/-- Witness for C3 at the concrete keyframe `kfRot`, boundary point 0. -/
theorem keyframe_vertices_3d_projects_witness :
    (kfRot.vertices_3d).getD 0 ⟨0, 0, 0⟩ =
      Vec3.add
        (Vec3.add kfRot.center
          (Vec3.smul ((kfRot.vertices_2d.getD 0 ⟨0, 0⟩).x) kfRot.right))
        (Vec3.smul ((kfRot.vertices_2d.getD 0 ⟨0, 0⟩).y) kfRot.up) :=
  keyframe_vertices_3d_projects kfRot 0 (by decide)

/-- C4: `transform()` never yields a 4×4 matrix at all: the body
default-constructs `Eigen::MatrixX4d ret` with 0 rows and then writes
fixed-size blocks into it and converts the 0×4 result to `Matrix4d`, so
every call fails Eigen's size assertions (an out-of-bounds write when
assertions are compiled out) — the faithful embedding evaluates to `none`
for every keyframe, and in particular `transform()` is not the affine map
whose products with (x_i, y_i, 0, 1) are the rows of `vertices_3d()`. -/
theorem keyframe_transform_never_returns (kf : KeyFrame) :
    kf.transform = none := rfl

/-- C7: at an installed keyframe, `operator++` moves to the right keyframe
of the keyframe's right-bounding cell, or to the end iterator when there
is no right-bounding cell; symmetrically `operator--` moves to the left
keyframe of the left-bounding cell, or to the end iterator at the tube's
start. -/
theorem keyframe_iterator_moves_along_cells (h : Heap) (k : ℕ) (kfo : KFObj)
    (hk : h.getKF k = some kfo) :
    (∀ cp c, kfo.cells1 = some cp → h.lockCell cp = some c →
        kfIterSucc h (some k) = some (some c.right_keyframe)) ∧
    (kfo.cells1.bind h.lockCell = none → kfIterSucc h (some k) = some none) ∧
    (∀ cp c, kfo.cells0 = some cp → h.lockCell cp = some c →
        kfIterPred h (some k) = some (some c.left_keyframe)) ∧
    (kfo.cells0.bind h.lockCell = none → kfIterPred h (some k) = some none) := by
  refine ⟨fun cp c hcp hc => ?_, fun hn => ?_, fun cp c hcp hc => ?_,
    fun hn => ?_⟩
  · simp only [kfIterSucc, hk, hcp, Option.some_bind, hc]
  · simp only [kfIterSucc, hk, hn]
  · simp only [kfIterPred, hk, hcp, Option.some_bind, hc]
  · simp only [kfIterPred, hk, hn]

/-- C10: both iterator steps dereference the stored keyframe pointer
before the null check, so in the total embedding they are undefined
(`none`) exactly on the end iterator, and defined on every iterator whose
keyframe pointer is live. -/
theorem keyframe_iterator_deref_before_null_check (h : Heap) :
    kfIterSucc h none = none ∧ kfIterPred h none = none ∧
    (∀ k kfo, h.getKF k = some kfo →
      (kfIterSucc h (some k)).isSome = true ∧
      (kfIterPred h (some k)).isSome = true) := by
  refine ⟨rfl, rfl, fun k kfo hk => ⟨?_, ?_⟩⟩ <;>
    simp only [kfIterSucc, kfIterPred, hk] <;>
    cases kfo.cells1.bind h.lockCell <;>
    cases kfo.cells0.bind h.lockCell <;> rfl

/-- Witness for C7 on the concrete heap `heapW` at keyframe 0: its right
cell is cell 0, so `operator++` moves to keyframe 1, and its left cell is
absent, so `operator--` yields the end iterator. -/
theorem keyframe_iterator_moves_along_cells_witness :
    heapW.getKF 0 = some kfObjW0 ∧
    kfObjW0.cells1 = some 0 ∧
    heapW.lockCell 0 = some cellObjW ∧
    kfIterSucc heapW (some 0) = some (some cellObjW.right_keyframe) ∧
    kfObjW0.cells0.bind heapW.lockCell = none ∧
    kfIterPred heapW (some 0) = some none :=
  ⟨rfl, rfl, rfl,
    (keyframe_iterator_moves_along_cells heapW 0 kfObjW0 rfl).1 0 cellObjW
      rfl rfl,
    rfl,
    (keyframe_iterator_moves_along_cells heapW 0 kfObjW0 rfl).2.2.2 rfl⟩

/-- Witness for C10 on the concrete heap `heapW` at keyframe 0: stepping
the end iterator is undefined, stepping the live keyframe 0 is defined in
both directions. -/
theorem keyframe_iterator_deref_before_null_check_witness :
    kfIterSucc heapW none = none ∧ kfIterPred heapW none = none ∧
    heapW.getKF 0 = some kfObjW0 ∧
    (kfIterSucc heapW (some 0)).isSome = true ∧
    (kfIterPred heapW (some 0)).isSome = true :=
  ⟨(keyframe_iterator_deref_before_null_check heapW).1,
   (keyframe_iterator_deref_before_null_check heapW).2.1,
   rfl,
   ((keyframe_iterator_deref_before_null_check heapW).2.2 0 kfObjW0 rfl).1,
   ((keyframe_iterator_deref_before_null_check heapW).2.2 0 kfObjW0 rfl).2⟩

/-- C8: after `clear()` the cage is fully empty: both skeleton matrices
have zero rows, the reported mesh vertex and face blocks have zero rows,
root and leaf-list head/tail are null, `cells.begin() == cells.end()`,
`keyframes.begin() == keyframes.end()`, and
`min_index() == max_index() == 0`. -/
theorem clear_resets_all_state (s : CageState) :
    (BoundingCage.clear s).SV = [] ∧
    (BoundingCage.clear s).SV_smooth = [] ∧
    BoundingCage.vertices (BoundingCage.clear s) = [] ∧
    BoundingCage.faces (BoundingCage.clear s) = [] ∧
    (BoundingCage.clear s).root = none ∧
    (BoundingCage.clear s).cellsHead = none ∧
    (BoundingCage.clear s).cellsTail = none ∧
    cellsBegin (BoundingCage.clear s) = cellsEnd ∧
    keyframesBegin (BoundingCage.clear s) = keyframesEnd ∧
    BoundingCage.min_index (BoundingCage.clear s) = 0 ∧
    BoundingCage.max_index (BoundingCage.clear s) = 0 :=
  ⟨rfl, rfl, rfl, rfl, rfl, rfl, rfl, rfl, rfl, rfl, rfl⟩

/-- C9: `min_index()` / `max_index()` return the root cell's left and
right keyframe indices when the cage is initialized, and both return 0
when the root is null. -/
theorem min_max_index_are_root_bounds (s : CageState) :
    (s.root = none →
      BoundingCage.min_index s = 0 ∧ BoundingCage.max_index s = 0) ∧
    (∀ r c lkf rkf, s.root = some r → s.heap.lockCell r = some c →
      s.heap.getKF c.left_keyframe = some lkf →
      s.heap.getKF c.right_keyframe = some rkf →
      BoundingCage.min_index s = lkf.geom.indexV ∧
      BoundingCage.max_index s = rkf.geom.indexV) := by
  constructor
  · intro h
    simp [BoundingCage.min_index, BoundingCage.max_index, h]
  · intro r c lkf rkf hr hc hl hrk
    simp [BoundingCage.min_index, BoundingCage.max_index, hr, hc,
      Cell.min_index, Cell.max_index, hl, hrk]

theorem splitLeaves_head_left {L L2 : List LCell} {t : ℚ}
    (h : splitLeaves L t = some L2) :
    (L2.head?).map LCell.left = (L.head?).map LCell.left := by
  induction L generalizing L2 with
  | nil => simp [splitLeaves] at h
  | cons c rest ih =>
    by_cases hin : c.left < t ∧ t < c.right
    · simp only [splitLeaves, if_pos hin, Option.some.injEq] at h
      subst h
      rfl
    · simp only [splitLeaves, if_neg hin, Option.map_eq_some'] at h
      obtain ⟨L2p, hL2p, rfl⟩ := h
      rfl

theorem splitLeaves_wf {L L2 : List LCell} {t : ℚ}
    (hch : ChainedL L) (hlt : AllLt L) (h : splitLeaves L t = some L2) :
    ChainedL L2 ∧ AllLt L2 ∧ L2 ≠ [] := by
  induction L generalizing L2 with
  | nil => simp [splitLeaves] at h
  | cons c rest ih =>
    by_cases hin : c.left < t ∧ t < c.right
    · simp only [splitLeaves, if_pos hin, Option.some.injEq] at h
      subst h
      refine ⟨?_, ?_, by simp⟩
      · unfold ChainedL at hch ⊢
        rw [List.chain'_cons, List.chain'_cons']
        rw [List.chain'_cons'] at hch
        exact ⟨rfl, fun y hy => hch.1 y hy, hch.2⟩
      · intro d hd
        rw [List.mem_cons, List.mem_cons] at hd
        rcases hd with rfl | rfl | hd
        · exact hin.1
        · exact hin.2
        · exact hlt d (by simp [hd])
    · simp only [splitLeaves, if_neg hin, Option.map_eq_some'] at h
      obtain ⟨L2p, hL2p, rfl⟩ := h
      have hch2 : ChainedL rest := List.Chain'.tail hch
      have hlt2 : AllLt rest := fun d hd => hlt d (by simp [hd])
      obtain ⟨ihc, ihl, ihne⟩ := ih hch2 hlt2 hL2p
      refine ⟨?_, ?_, by simp⟩
      · unfold ChainedL at hch ihc ⊢
        rw [List.chain'_cons']
        refine ⟨?_, ihc⟩
        intro y hy
        have hh := splitLeaves_head_left hL2p
        rw [List.chain'_cons'] at hch
        cases hrest : rest with
        | nil => simp [splitLeaves, hrest] at hL2p
        | cons f restp =>
          cases hL2 : L2p with
          | nil => exact absurd hL2 ihne
          | cons g Lp =>
            have : g.left = f.left := by
              rw [hrest, hL2] at hh
              simpa using hh
            have hcf : c.right = f.left := hch.1 f (by simp [hrest])
            rw [hL2, List.head?_cons, Option.mem_some_iff] at hy
            rw [← hy, this, hcf]
      · intro d hd
        rw [List.mem_cons] at hd
        rcases hd with rfl | hd
        · exact hlt d (by simp)
        · exact ihl d hd

theorem reachable_wf {s : MCage} (h : CageReachable s) :
    ChainedL s.leaves ∧ AllLt s.leaves ∧ s.leaves ≠ [] := by
  induction h with
  | init a b n v f hab =>
    refine ⟨?_, ?_, by simp⟩
    · unfold ChainedL
      simp
    · intro c hc
      rw [List.mem_singleton] at hc
      subst hc
      exact hab
  | step s t s2 hs hstep ih =>
    unfold cageSplit at hstep
    cases hsp : splitLeaves s.leaves t with
    | none => rw [hsp] at hstep; simp at hstep
    | some L2 =>
      rw [hsp] at hstep
      obtain ⟨ihc, ihl, ihne⟩ := ih
      have := splitLeaves_wf ihc ihl hsp
      have hs2 : s2.leaves = L2 := by
        have := congrArg Prod.snd hstep
        simp at this
        rw [← this]
      rw [hs2]
      exact splitLeaves_wf ihc ihl hsp

theorem chain_head_le (f : LCell) (rest : List LCell)
    (hch : ChainedL (f :: rest)) (hlt : AllLt (f :: rest)) :
    ∀ c ∈ f :: rest, f.left ≤ c.left := by
  induction rest generalizing f with
  | nil =>
    intro c hc
    rw [List.mem_singleton] at hc
    subst hc
    exact le_refl _
  | cons g rest ih =>
    intro c hc
    rw [List.mem_cons] at hc
    rcases hc with rfl | hc
    · exact le_refl _
    · have hfg : f.right = g.left := by
        unfold ChainedL at hch
        exact (List.chain'_cons.mp hch).1
      have hgrest : ChainedL (g :: rest) := by
        unfold ChainedL at hch ⊢
        exact (List.chain'_cons.mp hch).2
      have hltg : AllLt (g :: rest) := fun d hd => hlt d (by simp [hd])
      have hgle : g.left ≤ c.left := ih g hgrest hltg c hc
      have hf : f.left < f.right := hlt f (by simp)
      calc f.left ≤ f.right := le_of_lt hf
        _ = g.left := hfg
        _ ≤ c.left := hgle

theorem chain_right_le_last (f : LCell) (rest : List LCell)
    (hch : ChainedL (f :: rest)) (hlt : AllLt (f :: rest)) :
    ∀ c ∈ f :: rest,
      c.right ≤ (((f :: rest).getLast?).map LCell.right).getD 0 := by
  induction rest generalizing f with
  | nil =>
    intro c hc
    rw [List.mem_singleton] at hc
    subst hc
    simp
  | cons g rest ih =>
    intro c hc
    rw [List.getLast?_cons_cons]
    have hfg : f.right = g.left := by
      unfold ChainedL at hch
      exact (List.chain'_cons.mp hch).1
    have hgrest : ChainedL (g :: rest) := by
      unfold ChainedL at hch
      exact (List.chain'_cons.mp hch).2
    have hltg : AllLt (g :: rest) := fun d hd => hlt d (by simp [hd])
    rw [List.mem_cons] at hc
    rcases hc with rfl | hc
    · have hg : g.left < g.right := hlt g (by simp)
      have hgl : g.right ≤ (((g :: rest).getLast?).map LCell.right).getD 0 :=
        ih g hgrest hltg g (by simp)
      calc c.right = g.left := hfg
        _ ≤ g.right := le_of_lt hg
        _ ≤ _ := hgl
    · exact ih g hgrest hltg c hc

theorem interval_order {L : List LCell} (hch : ChainedL L) (hlt : AllLt L) :
    ∀ c ∈ L, ∀ d ∈ L, c = d ∨ c.right ≤ d.left ∨ d.right ≤ c.left := by
  induction L with
  | nil => intro c hc; simp at hc
  | cons e rest ih =>
    intro c hc d hd
    have herest : ChainedL rest := List.Chain'.tail hch
    have hlrest : AllLt rest := fun x hx => hlt x (by simp [hx])
    have hbound : ∀ x ∈ rest, e.right ≤ x.left := by
      intro x hx
      cases hrest : rest with
      | nil => rw [hrest] at hx; simp at hx
      | cons g restp =>
        rw [hrest] at hx
        have hfg : e.right = g.left := by
          unfold ChainedL at hch
          rw [hrest] at hch
          exact (List.chain'_cons.mp hch).1
        have := chain_head_le g restp (by rw [hrest] at herest; exact herest)
          (by rw [hrest] at hlrest; exact hlrest) x hx
        rw [hfg]
        exact this
    rw [List.mem_cons] at hc hd
    rcases hc with rfl | hc
    · rcases hd with rfl | hd
      · exact Or.inl rfl
      · exact Or.inr (Or.inl (hbound d hd))
    · rcases hd with rfl | hd
      · exact Or.inr (Or.inr (hbound c hc))
      · exact ih herest hlrest c hc d hd

theorem splitLeaves_some_exists {L L2 : List LCell} {t : ℚ}
    (h : splitLeaves L t = some L2) :
    ∃ d ∈ L, d.left < t ∧ t < d.right := by
  induction L generalizing L2 with
  | nil => simp [splitLeaves] at h
  | cons c rest ih =>
    by_cases hin : c.left < t ∧ t < c.right
    · exact ⟨c, by simp, hin⟩
    · simp only [splitLeaves, if_neg hin, Option.map_eq_some'] at h
      obtain ⟨L2p, hL2p, rfl⟩ := h
      obtain ⟨d, hd, hdp⟩ := ih hL2p
      exact ⟨d, by simp [hd], hdp⟩

theorem chained_strict_lt {L : List LCell} (hch : ChainedL L)
    (hlt : AllLt L) : List.Chain' (fun c d => c.left < d.left) L := by
  induction L with
  | nil => simp
  | cons f rest ih =>
    cases rest with
    | nil => simp
    | cons g restp =>
      unfold ChainedL at hch
      rw [List.chain'_cons] at hch ⊢
      refine ⟨?_, ih hch.2 (fun d hd => hlt d (by simp [hd]))⟩
      have hf : f.left < f.right := hlt f (by simp)
      rw [← hch.1]
      exact hf

/-- C1: splitting at an index outside the closed interval
`[min_index(), max_index()]` of a cage with an installed root fails and
leaves the leaf count, the mesh vertex count and the mesh face count
unchanged. -/
theorem split_out_of_range_keeps_state (s : MCage) (t : ℚ)
    (hreach : CageReachable s)
    (hout : t < s.minIdx ∨ s.maxIdx < t) :
    cageSplit s t = (false, s) ∧
    (cageSplit s t).2.leaves.length = s.leaves.length ∧
    (cageSplit s t).2.meshV = s.meshV ∧
    (cageSplit s t).2.meshF = s.meshF := by
  obtain ⟨hch, hlt, hne⟩ := reachable_wf hreach
  have hnone : splitLeaves s.leaves t = none := by
    cases hsp : splitLeaves s.leaves t with
    | none => rfl
    | some L2 =>
      exfalso
      obtain ⟨d, hd, hd1, hd2⟩ := splitLeaves_some_exists hsp
      cases hL : s.leaves with
      | nil => exact hne hL
      | cons f rest =>
        rw [hL] at hch hlt hd
        rcases hout with hout | hout
        · have hmin : s.minIdx = f.left := by simp [MCage.minIdx, hL]
          have : f.left ≤ d.left := chain_head_le f rest hch hlt d hd
          rw [hmin] at hout
          exact absurd hd1 (not_lt.mpr (le_of_lt (lt_of_lt_of_le hout this)))
        · have hmax : s.maxIdx =
              (((f :: rest).getLast?).map LCell.right).getD 0 := by
            simp [MCage.maxIdx, hL]
          have : d.right ≤ (((f :: rest).getLast?).map LCell.right).getD 0 :=
            chain_right_le_last f rest hch hlt d hd
          rw [hmax] at hout
          exact absurd hd2 (not_lt.mpr (le_of_lt (lt_of_le_of_lt this hout)))
  have heq : cageSplit s t = (false, s) := by
    unfold cageSplit
    rw [hnone]
  exact ⟨heq, by rw [heq], by rw [heq], by rw [heq]⟩

/-- C6: splitting a reachable cage with a keyframe whose index equals an
existing boundary keyframe's index (so not strictly inside any cell)
fails, leaves every cell unchanged, and installs or duplicates no
keyframe. -/
theorem split_at_existing_boundary_fails (s : MCage) (b : ℚ)
    (hreach : CageReachable s)
    (hb : ∃ c ∈ s.leaves, b = c.left ∨ b = c.right) :
    cageSplit s b = (false, s) ∧
    (cageSplit s b).2.leaves = s.leaves := by
  obtain ⟨hch, hlt, hne⟩ := reachable_wf hreach
  obtain ⟨c, hc, hbc⟩ := hb
  have hnone : splitLeaves s.leaves b = none := by
    cases hsp : splitLeaves s.leaves b with
    | none => rfl
    | some L2 =>
      exfalso
      obtain ⟨d, hd, hd1, hd2⟩ := splitLeaves_some_exists hsp
      rcases interval_order hch hlt c hc d hd with rfl | hcd | hcd
      · rcases hbc with rfl | rfl
        · exact absurd hd1 (lt_irrefl _)
        · exact absurd hd2 (lt_irrefl _)
      · have hbr : b ≤ c.right := by
          rcases hbc with rfl | rfl
          · exact le_of_lt (hlt c hc)
          · exact le_refl _
        exact absurd hd1 (not_lt.mpr (le_trans hbr hcd))
      · have hbl : c.left ≤ b := by
          rcases hbc with rfl | rfl
          · exact le_refl _
          · exact le_of_lt (hlt c hc)
        exact absurd hd2 (not_lt.mpr (le_trans hcd hbl))
  have heq : cageSplit s b = (false, s) := by
    unfold cageSplit
    rw [hnone]
  exact ⟨heq, by rw [heq]⟩

theorem cage1W_reachable : CageReachable cage1W :=
  CageReachable.step cage0W 2 cage1W
    (CageReachable.init 0 4 4 8 12 (by decide)) (by rfl)

/-- Witness for C1 on `cage1W` at the out-of-range index 5. -/
theorem split_out_of_range_keeps_state_witness :
    CageReachable cage1W ∧ cage1W.maxIdx < 5 ∧
    (cageSplit cage1W 5 = (false, cage1W) ∧
     (cageSplit cage1W 5).2.leaves.length = cage1W.leaves.length ∧
     (cageSplit cage1W 5).2.meshV = cage1W.meshV ∧
     (cageSplit cage1W 5).2.meshF = cage1W.meshF) :=
  ⟨cage1W_reachable, by decide,
   split_out_of_range_keeps_state cage1W 5 cage1W_reachable
     (Or.inr (by decide))⟩

/-- Witness for C6 on `cage1W` at index 2, the boundary keyframe installed
by the previous split. -/
theorem split_at_existing_boundary_fails_witness :
    CageReachable cage1W ∧
    ((⟨0, 2⟩ : LCell) ∈ cage1W.leaves ∧ (2 : ℚ) = (⟨0, 2⟩ : LCell).right) ∧
    (cageSplit cage1W 2 = (false, cage1W) ∧
     (cageSplit cage1W 2).2.leaves = cage1W.leaves) :=
  ⟨cage1W_reachable, ⟨by decide, by decide⟩,
   split_at_existing_boundary_fails cage1W 2 cage1W_reachable
     ⟨⟨0, 2⟩, by decide, Or.inr (by decide)⟩⟩

/-- C2: `move_point_2d` with `validate2d = true` (and `validate_3d =
false`) either commits the candidate polygon and returns success, or the
candidate self-intersects in local 2D coordinates and the call returns
failure with the keyframe exactly equal to its pre-call value; with both
validation flags false the call always commits. -/
theorem move_point_2d_transactional (check3d : KeyFrame → Bool)
    (kf : KeyFrame) (i : ℕ) (newpos : Vec2)
    (hi : i < kf.vertices_2d.length) :
    (movePoint2d check3d kf i newpos true false =
        (true, { kf with vertices2dL := kf.vertices2dL.set i newpos }) ∨
      (selfIntersects2d (kf.vertices2dL.set i newpos) = true ∧
        movePoint2d check3d kf i newpos true false = (false, kf))) ∧
    movePoint2d check3d kf i newpos false false =
      (true, { kf with vertices2dL := kf.vertices2dL.set i newpos }) := by
  constructor
  · by_cases h : selfIntersects2d (kf.vertices2dL.set i newpos) = true
    · exact Or.inr ⟨h, by simp [movePoint2d, h]⟩
    · exact Or.inl (by simp [movePoint2d, h])
  · simp [movePoint2d]

/-- Witness for C2 on the concrete square keyframe `kfSquare`, moving
point 0. -/
theorem move_point_2d_transactional_witness :
    (0 : ℕ) < kfSquare.vertices_2d.length ∧
    ((movePoint2d (fun _ => false) kfSquare 0 ⟨3, 1⟩ true false =
        (true,
          { kfSquare with
            vertices2dL := kfSquare.vertices2dL.set 0 ⟨3, 1⟩ }) ∨
      (selfIntersects2d (kfSquare.vertices2dL.set 0 ⟨3, 1⟩) = true ∧
        movePoint2d (fun _ => false) kfSquare 0 ⟨3, 1⟩ true false =
          (false, kfSquare))) ∧
     movePoint2d (fun _ => false) kfSquare 0 ⟨3, 1⟩ false false =
       (true,
         { kfSquare with
           vertices2dL := kfSquare.vertices2dL.set 0 ⟨3, 1⟩ })) :=
  ⟨by decide,
   move_point_2d_transactional (fun _ => false) kfSquare 0 ⟨3, 1⟩ (by decide)⟩

theorem min_max_index_are_root_bounds_witness :
    (BoundingCage.min_index cageW = (0 : ℚ) ∧
      BoundingCage.max_index cageW = (4 : ℚ)) ∧
    ((BoundingCage.clear cageW).root = none →
      BoundingCage.min_index (BoundingCage.clear cageW) = 0 ∧
      BoundingCage.max_index (BoundingCage.clear cageW) = 0) :=
  ⟨(min_max_index_are_root_bounds cageW).2 0 cellObjW kfObjW0
      { geom := { kfRot with indexV := 4 }, cells0 := some 0, cells1 := none }
      rfl rfl rfl rfl,
   (min_max_index_are_root_bounds (BoundingCage.clear cageW)).1⟩

theorem updNodes_eq (f : ℕ → Option LNode) (p : ℕ) (v : Option LNode) :
    updNodes f p v p = v := by
  unfold updNodes
  simp

theorem updNodes_ne (f : ℕ → Option LNode) (p : ℕ) (v : Option LNode)
    (a : ℕ) (h : a ≠ p) : updNodes f p v a = f a := by
  unfold updNodes
  simp [h]

theorem setNextPtr_ne (f : ℕ → Option LNode) (q? : Option ℕ)
    (nxt : Option ℕ) (a : ℕ) (h : q? ≠ some a) :
    setNextPtr f q? nxt a = f a := by
  cases q? with
  | none => rfl
  | some q =>
    cases hq : f q with
    | none => simp only [setNextPtr, hq]
    | some nq =>
      simp only [setNextPtr, hq]
      exact updNodes_ne _ _ _ _ (fun he => h (by rw [he]))

theorem setPrevPtr_ne (f : ℕ → Option LNode) (q? : Option ℕ)
    (prv : Option ℕ) (a : ℕ) (h : q? ≠ some a) :
    setPrevPtr f q? prv a = f a := by
  cases q? with
  | none => rfl
  | some q =>
    cases hq : f q with
    | none => simp only [setPrevPtr, hq]
    | some nq =>
      simp only [setPrevPtr, hq]
      exact updNodes_ne _ _ _ _ (fun he => h (by rw [he]))

theorem setNextPtr_of_eq (f : ℕ → Option LNode) (q? : Option ℕ)
    (nxt : Option ℕ) (q : ℕ) (nq : LNode)
    (hq? : q? = some q) (hq : f q = some nq) :
    setNextPtr f q? nxt q = some { nq with next_cell := nxt } := by
  subst hq?
  simp only [setNextPtr, hq]
  exact updNodes_eq _ _ _

theorem setPrevPtr_of_eq (f : ℕ → Option LNode) (q? : Option ℕ)
    (prv : Option ℕ) (q : ℕ) (nq : LNode)
    (hq? : q? = some q) (hq : f q = some nq) :
    setPrevPtr f q? prv q = some { nq with prev_cell := prv } := by
  subst hq?
  simp only [setPrevPtr, hq]
  exact updNodes_eq _ _ _

theorem splice_get_old (s : LState) (p : ℕ) (nd : LNode) (t : ℚ) (a : ℕ)
    (hap : a ≠ p) (ha1 : a ≠ s.fresh) (ha2 : a ≠ s.fresh + 1)
    (hprev : nd.prev_cell ≠ some a) (hnext : nd.next_cell ≠ some a) :
    (spliceSplit s p nd t).get a = s.get a := by
  show setPrevPtr _ nd.next_cell _ a = s.nodes a
  rw [setPrevPtr_ne _ _ _ _ hnext, setNextPtr_ne _ _ _ _ hprev,
    updNodes_ne _ _ _ _ ha2, updNodes_ne _ _ _ _ ha1,
    updNodes_ne _ _ _ _ hap]

theorem splice_get_p1 (s : LState) (p : ℕ) (nd : LNode) (t : ℚ)
    (hp : nd.prev_cell ≠ some s.fresh) (hn : nd.next_cell ≠ some s.fresh) :
    (spliceSplit s p nd t).get s.fresh =
      some ⟨nd.leftI, t, some (s.fresh + 1), nd.prev_cell⟩ := by
  show setPrevPtr _ nd.next_cell _ s.fresh = _
  rw [setPrevPtr_ne _ _ _ _ hn, setNextPtr_ne _ _ _ _ hp,
    updNodes_ne _ _ _ _ (by omega), updNodes_eq]

theorem splice_get_p2 (s : LState) (p : ℕ) (nd : LNode) (t : ℚ)
    (hp : nd.prev_cell ≠ some (s.fresh + 1))
    (hn : nd.next_cell ≠ some (s.fresh + 1)) :
    (spliceSplit s p nd t).get (s.fresh + 1) =
      some ⟨t, nd.rightI, nd.next_cell, some s.fresh⟩ := by
  show setPrevPtr _ nd.next_cell _ (s.fresh + 1) = _
  rw [setPrevPtr_ne _ _ _ _ hn, setNextPtr_ne _ _ _ _ hp, updNodes_eq]

theorem splice_get_p_none (s : LState) (p : ℕ) (nd : LNode) (t : ℚ)
    (h1 : p ≠ s.fresh) (h2 : p ≠ s.fresh + 1)
    (hprev : nd.prev_cell ≠ some p) (hnext : nd.next_cell ≠ some p) :
    (spliceSplit s p nd t).get p = none := by
  show setPrevPtr _ nd.next_cell _ p = none
  rw [setPrevPtr_ne _ _ _ _ hnext, setNextPtr_ne _ _ _ _ hprev,
    updNodes_ne _ _ _ _ h2, updNodes_ne _ _ _ _ h1, updNodes_eq]

theorem splice_get_qprev (s : LState) (p : ℕ) (nd : LNode) (t : ℚ)
    (q : ℕ) (nq : LNode)
    (hq : nd.prev_cell = some q) (hgetq : s.get q = some nq)
    (hqp : q ≠ p) (h1 : q ≠ s.fresh) (h2 : q ≠ s.fresh + 1)
    (hqn : nd.next_cell ≠ some q) :
    (spliceSplit s p nd t).get q =
      some { nq with next_cell := some s.fresh } := by
  have hf0 : updNodes
      (updNodes (updNodes s.nodes p none)
        s.fresh (some ⟨nd.leftI, t, some (s.fresh + 1), nd.prev_cell⟩))
      (s.fresh + 1) (some ⟨t, nd.rightI, nd.next_cell, some s.fresh⟩) q =
      some nq := by
    rw [updNodes_ne _ _ _ _ h2, updNodes_ne _ _ _ _ h1,
      updNodes_ne _ _ _ _ hqp]
    exact hgetq
  show setPrevPtr _ nd.next_cell _ q = _
  rw [setPrevPtr_ne _ _ _ _ hqn]
  exact setNextPtr_of_eq _ _ _ _ _ hq hf0

theorem splice_get_qnext (s : LState) (p : ℕ) (nd : LNode) (t : ℚ)
    (q : ℕ) (nq : LNode)
    (hq : nd.next_cell = some q) (hgetq : s.get q = some nq)
    (hqp : q ≠ p) (h1 : q ≠ s.fresh) (h2 : q ≠ s.fresh + 1)
    (hqprev : nd.prev_cell ≠ some q) :
    (spliceSplit s p nd t).get q =
      some { nq with prev_cell := some (s.fresh + 1) } := by
  have hf1 : setNextPtr
      (updNodes
        (updNodes (updNodes s.nodes p none)
          s.fresh (some ⟨nd.leftI, t, some (s.fresh + 1), nd.prev_cell⟩))
        (s.fresh + 1) (some ⟨t, nd.rightI, nd.next_cell, some s.fresh⟩))
      nd.prev_cell (some s.fresh) q = some nq := by
    rw [setNextPtr_ne _ _ _ _ hqprev, updNodes_ne _ _ _ _ h2,
      updNodes_ne _ _ _ _ h1, updNodes_ne _ _ _ _ hqp]
    exact hgetq
  show setPrevPtr _ nd.next_cell _ q = _
  exact setPrevPtr_of_eq _ _ _ _ _ hq hf1

theorem cellChain_nil_inv (s : LState) (prev cur : Option ℕ)
    (h : CellChain s prev cur []) : cur = none := by
  cases h
  rfl

theorem cellChain_cons_inv (s : LState) (prev cur : Option ℕ) (q : ℕ)
    (nq : LNode) (ws : List (ℕ × LNode))
    (h : CellChain s prev cur ((q, nq) :: ws)) :
    cur = some q ∧ s.get q = some nq ∧ nq.prev_cell = prev ∧
    CellChain s (some q) nq.next_cell ws := by
  cases h with
  | cons _ _ _ _ hget hprev htail => exact ⟨rfl, hget, hprev, htail⟩

theorem cellChain_frame (s s2 : LState) :
    ∀ (ps : List (ℕ × LNode)) (prev cur : Option ℕ),
    CellChain s prev cur ps →
    (∀ e ∈ ps, s2.get e.1 = s.get e.1) →
    CellChain s2 prev cur ps := by
  intro ps
  induction ps with
  | nil =>
    intro prev cur h _
    cases h
    exact CellChain.nil _
  | cons e rest ih =>
    intro prev cur h hag
    obtain ⟨p, nd⟩ := e
    cases h with
    | cons _ _ _ _ hget hprev htail =>
      exact CellChain.cons prev p nd rest
        (by rw [hag (p, nd) (by simp)]; exact hget) hprev
        (ih (some p) nd.next_cell htail
          (fun e he => hag e (by simp [he])))

theorem chain_mem_get (s : LState) :
    ∀ (ps : List (ℕ × LNode)) (prev cur : Option ℕ),
    CellChain s prev cur ps → ∀ e ∈ ps, s.get e.1 = some e.2 := by
  intro ps
  induction ps with
  | nil => intro prev cur _ e he; simp at he
  | cons f rest ih =>
    intro prev cur h e he
    obtain ⟨p, nd⟩ := f
    cases h with
    | cons _ _ _ _ hget hprev htail =>
      rw [List.mem_cons] at he
      rcases he with rfl | he
      · exact hget
      · exact ih (some p) nd.next_cell htail e he

theorem chain_entry_prev (s : LState) :
    ∀ (zs ws : List (ℕ × LNode)) (p : ℕ) (nd : LNode) (prev cur : Option ℕ),
    CellChain s prev cur (zs ++ (p, nd) :: ws) →
    (zs = [] ∧ nd.prev_cell = prev ∧ cur = some p) ∨
    (∃ q nq zs0, zs = zs0 ++ [(q, nq)] ∧ nd.prev_cell = some q) := by
  intro zs
  induction zs with
  | nil =>
    intro ws p nd prev cur h
    cases h with
    | cons _ _ _ _ hget hprev htail => exact Or.inl ⟨rfl, hprev, rfl⟩
  | cons e zs' ih =>
    intro ws p nd prev cur h
    obtain ⟨q, nq⟩ := e
    cases h with
    | cons _ _ _ _ hget hprev htail =>
      rcases ih ws p nd (some q) nq.next_cell htail with
        ⟨hz, hp, hc⟩ | ⟨q2, nq2, zs0, hz, hp⟩
      · subst hz
        exact Or.inr ⟨q, nq, [], by simp, hp⟩
      · exact Or.inr ⟨q2, nq2, (q, nq) :: zs0, by rw [hz]; rfl, hp⟩

theorem chain_entry_next (s : LState) :
    ∀ (zs ws : List (ℕ × LNode)) (p : ℕ) (nd : LNode) (prev cur : Option ℕ),
    CellChain s prev cur (zs ++ (p, nd) :: ws) →
    (ws = [] ∧ nd.next_cell = none) ∨
    (∃ q nq ws', ws = (q, nq) :: ws' ∧ nd.next_cell = some q) := by
  intro zs
  induction zs with
  | nil =>
    intro ws p nd prev cur h
    cases h with
    | cons _ _ _ _ hget hprev htail =>
      cases ws with
      | nil =>
        exact Or.inl ⟨rfl, cellChain_nil_inv s _ _ htail⟩
      | cons e ws' =>
        obtain ⟨q, nq⟩ := e
        exact Or.inr ⟨q, nq, ws', rfl,
          (cellChain_cons_inv s _ _ _ _ _ htail).1⟩
  | cons e zs' ih =>
    intro ws p nd prev cur h
    obtain ⟨q, nq⟩ := e
    cases h with
    | cons _ _ _ _ hget hprev htail =>
      exact ih ws p nd (some q) nq.next_cell htail

theorem fwd_of_chain (s : LState) :
    ∀ (ps : List (ℕ × LNode)) (prev cur : Option ℕ) (n : ℕ),
    CellChain s prev cur ps → ps.length ≤ n →
    fwdIter s n cur = ps.map Prod.snd := by
  intro ps
  induction ps with
  | nil =>
    intro prev cur n h _
    cases h
    cases n <;> rfl
  | cons e rest ih =>
    intro prev cur n h hn
    obtain ⟨p, nd⟩ := e
    cases h with
    | cons _ _ _ _ hget hprev htail =>
      cases n with
      | zero => simp at hn
      | succ m =>
        show fwdIter s (m + 1) (some p) = nd :: rest.map Prod.snd
        unfold fwdIter
        rw [hget]
        show nd :: fwdIter s m nd.next_cell = nd :: List.map Prod.snd rest
        rw [ih (some p) nd.next_cell m htail
          (by simpa using Nat.succ_le_succ_iff.mp hn)]

theorem bwd_of_prevSeg (s : LState) :
    ∀ (qs : List (ℕ × LNode)) (cur : Option ℕ) (n : ℕ),
    PrevSeg s cur qs none → qs.length ≤ n →
    bwdIter s n cur = qs.map Prod.snd := by
  intro qs
  induction qs with
  | nil =>
    intro cur n h _
    rw [show cur = none from h]
    cases n <;> rfl
  | cons e rest ih =>
    intro cur n h hn
    obtain ⟨p, nd⟩ := e
    obtain ⟨hcur, hget, hrest⟩ := h
    subst hcur
    cases n with
    | zero => simp at hn
    | succ m =>
      show bwdIter s (m + 1) (some p) = nd :: rest.map Prod.snd
      unfold bwdIter
      rw [hget]
      show nd :: bwdIter s m nd.prev_cell = nd :: List.map Prod.snd rest
      rw [ih nd.prev_cell m hrest
        (by simpa using Nat.succ_le_succ_iff.mp hn)]

theorem chain_to_prevSeg (s : LState) :
    ∀ (ps qs0 : List (ℕ × LNode)) (prev cur stop : Option ℕ),
    CellChain s prev cur ps →
    PrevSeg s prev qs0 stop →
    PrevSeg s ((ps.getLast?).elim prev (fun e => some e.1))
      (ps.reverse ++ qs0) stop := by
  intro ps
  induction ps with
  | nil =>
    intro qs0 prev cur stop h hseg
    simpa using hseg
  | cons e rest ih =>
    intro qs0 prev cur stop h hseg
    obtain ⟨p, nd⟩ := e
    cases h with
    | cons _ _ _ _ hget hprev htail =>
      have hseg2 : PrevSeg s (some p) ((p, nd) :: qs0) stop :=
        ⟨rfl, hget, by rw [hprev]; exact hseg⟩
      have hmain := ih ((p, nd) :: qs0) (some p) nd.next_cell stop htail hseg2
      have hlist : rest.reverse ++ (p, nd) :: qs0 =
          ((p, nd) :: rest).reverse ++ qs0 := by
        simp
      rw [hlist] at hmain
      cases hrest : rest with
      | nil => simpa [hrest] using hmain
      | cons f rest2 =>
        rw [hrest] at hmain
        rw [List.getLast?_cons_cons]
        cases hlast : (f :: rest2).getLast? with
        | none => simp at hlast
        | some g =>
          rw [hlast] at hmain
          simpa [hrest] using hmain

theorem splice_chain (s : LState) (p : ℕ) (nd : LNode) (t : ℚ) :
    ∀ (xs ys : List (ℕ × LNode)) (prev cur : Option ℕ),
    CellChain s prev cur (xs ++ (p, nd) :: ys) →
    ((xs ++ (p, nd) :: ys).map Prod.fst).Nodup →
    (∀ e ∈ xs ++ (p, nd) :: ys, e.1 < s.fresh) →
    (∀ a, prev = some a →
      a < s.fresh ∧ a ∉ (xs ++ (p, nd) :: ys).map Prod.fst) →
    CellChain (spliceSplit s p nd t) prev
      (if xs = [] then some s.fresh else cur)
      (bumpLastNext xs s.fresh ++
        (s.fresh, ⟨nd.leftI, t, some (s.fresh + 1), nd.prev_cell⟩) ::
        (s.fresh + 1, ⟨t, nd.rightI, nd.next_cell, some s.fresh⟩) ::
        bumpHeadPrev ys (s.fresh + 1)) := by
  intro xs
  induction xs with
  | nil =>
    intro ys prev cur h hnd hb hpok
    obtain ⟨hcur, hget, hprevnd, htail⟩ :=
      cellChain_cons_inv s prev cur p nd ys h
    subst hcur
    have hnd' : (p :: ys.map Prod.fst).Nodup := by simpa using hnd
    have hnext_info := chain_entry_next s [] ys p nd prev (some p) h
    have hprev_nf : ∀ b, nd.prev_cell = some b → b < s.fresh := by
      intro b hbv
      exact (hpok b (by rw [← hprevnd]; exact hbv)).1
    have hnext_nf : ∀ b, nd.next_cell = some b → b < s.fresh := by
      intro b hbv
      rcases hnext_info with ⟨_, hnone⟩ | ⟨q, nq, ys', hys, hsome⟩
      · rw [hnone] at hbv; exact Option.noConfusion hbv
      · rw [hsome] at hbv
        injection hbv with hbv
        subst hbv
        exact hb (q, nq) (by simp [hys])
    have hp1p : nd.prev_cell ≠ some s.fresh := fun he => by
      have := hprev_nf _ he; omega
    have hp2p : nd.prev_cell ≠ some (s.fresh + 1) := fun he => by
      have := hprev_nf _ he; omega
    have hn1p : nd.next_cell ≠ some s.fresh := fun he => by
      have := hnext_nf _ he; omega
    have hn2p : nd.next_cell ≠ some (s.fresh + 1) := fun he => by
      have := hnext_nf _ he; omega
    refine CellChain.cons prev s.fresh _ _
      (splice_get_p1 s p nd t hp1p hn1p) hprevnd ?_
    refine CellChain.cons (some s.fresh) (s.fresh + 1) _ _
      (splice_get_p2 s p nd t hp2p hn2p) rfl ?_
    rcases hnext_info with ⟨hys, hnone⟩ | ⟨q, nq, ys', hys, hsome⟩
    · subst hys
      rw [hnone]
      exact CellChain.nil _
    · subst hys
      obtain ⟨hq_eq, hgetq, hprevq, htail2⟩ :=
        cellChain_cons_inv s (some p) nd.next_cell q nq ys' htail
    -- the continuation pointer is nd.next_cell = some q
      rw [hq_eq]
      show CellChain _ (some (s.fresh + 1)) (some q)
        ((q, { nq with prev_cell := some (s.fresh + 1) }) :: ys')
      have hqp : q ≠ p := by
        have : p ∉ q :: ys'.map Prod.fst := by
          simpa using (List.nodup_cons.mp hnd').1
        intro he
        exact this (by rw [← he]; simp)
      have hqf : q < s.fresh := hb (q, nq) (by simp)
      have hqprevne : nd.prev_cell ≠ some q := by
        intro he
        have := (hpok q (by rw [← hprevnd]; exact he)).2
        exact this (by simp)
      refine CellChain.cons _ q _ ys'
        (splice_get_qnext s p nd t q nq hq_eq hgetq hqp
          (by omega) (by omega) hqprevne) rfl ?_
      apply cellChain_frame s _ ys' (some q) nq.next_cell htail2
      intro e he
      have hemem : e.1 ∈ ys'.map Prod.fst := List.mem_map_of_mem Prod.fst he
      have hep : e.1 ≠ p := by
        have hpn : p ∉ q :: ys'.map Prod.fst := by
          simpa using (List.nodup_cons.mp hnd').1
        intro he2
        exact hpn (List.mem_cons_of_mem _ (he2 ▸ hemem))
      have hef : e.1 < s.fresh := hb e (by simp [he])
      have heprev : nd.prev_cell ≠ some e.1 := by
        intro he2
        have hnotin := (hpok e.1 (by rw [← hprevnd]; exact he2)).2
        refine hnotin ?_
        show e.1 ∈ (((p, nd) :: (q, nq) :: ys').map Prod.fst)
        exact List.mem_cons_of_mem _ (List.mem_cons_of_mem _ hemem)
      have henext : nd.next_cell ≠ some e.1 := by
        rw [hq_eq]
        intro he2
        injection he2 with he2
        have hqnotin : q ∉ ys'.map Prod.fst := by
          have := (List.nodup_cons.mp (List.nodup_cons.mp hnd').2).1
          simpa using this
        exact hqnotin (he2 ▸ List.mem_map_of_mem _ he)
      exact splice_get_old s p nd t e.1 hep (by omega) (by omega)
        heprev henext
  | cons e xs' ih =>
    intro ys prev cur h hnd hb hpok
    obtain ⟨x, nx⟩ := e
    obtain ⟨hcur, hgetx, hprevx, htail⟩ :=
      cellChain_cons_inv s prev cur x nx _ h
    subst hcur
    have hxf : x < s.fresh := hb (x, nx) (by simp)
    have hnd0 : (x :: (xs' ++ (p, nd) :: ys).map Prod.fst).Nodup := by
      simpa using hnd
    have hxnotin : x ∉ (xs' ++ (p, nd) :: ys).map Prod.fst :=
      (List.nodup_cons.mp hnd0).1
    have hnd1 : ((xs' ++ (p, nd) :: ys).map Prod.fst).Nodup :=
      (List.nodup_cons.mp hnd0).2
    have hb1 : ∀ e2 ∈ xs' ++ (p, nd) :: ys, e2.1 < s.fresh :=
      fun e2 he2 => hb e2 (by simp [he2])
    have hpok1 : ∀ a, some x = some a →
        a < s.fresh ∧ a ∉ (xs' ++ (p, nd) :: ys).map Prod.fst := by
      intro a ha
      injection ha with ha
      subst ha
      exact ⟨hxf, hxnotin⟩
    have hIH := ih ys (some x) nx.next_cell htail hnd1 hb1 hpok1
    have hne : ((x, nx) :: xs' : List (ℕ × LNode)) ≠ [] := by simp
    rw [if_neg hne]
    have hxp : x ≠ p := by
      intro he
      exact hxnotin (by rw [he]; simp)
    cases xs' with
    | nil =>
      obtain ⟨hnxnext, hgetp, hprevnd, htail2⟩ :=
        cellChain_cons_inv s (some x) nx.next_cell p nd ys htail
      have hndnext_ne : nd.next_cell ≠ some x := by
        rcases chain_entry_next s [] ys p nd (some x) nx.next_cell htail with
          ⟨_, hnone⟩ | ⟨q, nq, ys', hys, hsome⟩
        · rw [hnone]; exact fun he => Option.noConfusion he
        · rw [hsome]
          intro he
          injection he with he
          exact hxnotin (by rw [← he, hys]; simp)
      show CellChain _ prev (some x)
        ((x, { nx with next_cell := some s.fresh }) ::
          ((s.fresh, _) :: (s.fresh + 1, _) :: bumpHeadPrev ys (s.fresh + 1)))
      refine CellChain.cons prev x _ _
        (splice_get_qprev s p nd t x nx hprevnd hgetx hxp
          (by omega) (by omega) hndnext_ne) hprevx ?_
      simpa using hIH
    | cons w xs2 =>
      have hndprev_ne : nd.prev_cell ≠ some x := by
        rcases chain_entry_prev s (w :: xs2) ys p nd (some x) nx.next_cell
            htail with ⟨habs, _, _⟩ | ⟨q, nq, zs0, hzs, hsome⟩
        · exact absurd habs (by simp)
        · rw [hsome]
          intro he
          injection he with he
          have hqmem : q ∈ (w :: xs2).map Prod.fst := by
            rw [hzs]
            simp
          refine hxnotin ?_
          rw [← he]
          rw [List.map_append]
          exact List.mem_append_left _ hqmem
      have hndnext_ne : nd.next_cell ≠ some x := by
        rcases chain_entry_next s (w :: xs2) ys p nd (some x) nx.next_cell
            htail with ⟨_, hnone⟩ | ⟨q, nq, ys', hys, hsome⟩
        · rw [hnone]; exact fun he => Option.noConfusion he
        · rw [hsome]
          intro he
          injection he with he
          exact hxnotin (by rw [← he, hys]; simp)
      show CellChain _ prev (some x)
        ((x, nx) :: (bumpLastNext (w :: xs2) s.fresh ++
          (s.fresh, _) :: (s.fresh + 1, _) :: bumpHeadPrev ys (s.fresh + 1)))
      refine CellChain.cons prev x nx _
        (by
          rw [splice_get_old s p nd t x hxp (by omega) (by omega)
            hndprev_ne hndnext_ne]
          exact hgetx) hprevx ?_
      simpa using hIH

theorem mem_of_getLast_eq {α : Type} :
    ∀ (l : List α) (a : α), l.getLast? = some a → a ∈ l := by
  intro l
  induction l with
  | nil => intro a h; simp at h
  | cons f rest ih =>
    intro a h
    cases rest with
    | nil =>
      simp at h
      simp [h]
    | cons w r2 =>
      rw [List.getLast?_cons_cons] at h
      exact List.mem_cons_of_mem _ (ih a h)

theorem bumpLastNext_fst (p1 : ℕ) :
    ∀ xs : List (ℕ × LNode),
    (bumpLastNext xs p1).map Prod.fst = xs.map Prod.fst := by
  intro xs
  induction xs with
  | nil => rfl
  | cons e rest ih =>
    cases rest with
    | nil =>
      obtain ⟨q, nq⟩ := e
      rfl
    | cons w xs2 =>
      show (e :: bumpLastNext (w :: xs2) p1).map Prod.fst = _
      simp only [List.map_cons]
      rw [ih]
      rfl

theorem bumpLastNext_cellsOf (p1 : ℕ) :
    ∀ xs : List (ℕ × LNode), cellsOf (bumpLastNext xs p1) = cellsOf xs := by
  intro xs
  induction xs with
  | nil => rfl
  | cons e rest ih =>
    cases rest with
    | nil =>
      obtain ⟨q, nq⟩ := e
      rfl
    | cons w xs2 =>
      show cellsOf (e :: bumpLastNext (w :: xs2) p1) = _
      unfold cellsOf at ih ⊢
      simp only [List.map_cons]
      rw [ih]
      rfl

theorem bumpHeadPrev_fst (p2 : ℕ) (ys : List (ℕ × LNode)) :
    (bumpHeadPrev ys p2).map Prod.fst = ys.map Prod.fst := by
  cases ys with
  | nil => rfl
  | cons e rest =>
    obtain ⟨q, nq⟩ := e
    rfl

theorem bumpHeadPrev_cellsOf (p2 : ℕ) (ys : List (ℕ × LNode)) :
    cellsOf (bumpHeadPrev ys p2) = cellsOf ys := by
  cases ys with
  | nil => rfl
  | cons e rest =>
    obtain ⟨q, nq⟩ := e
    rfl

theorem cellsOf_append (l1 l2 : List (ℕ × LNode)) :
    cellsOf (l1 ++ l2) = cellsOf l1 ++ cellsOf l2 := by
  unfold cellsOf
  simp

theorem cellsOf_cons (e : ℕ × LNode) (l : List (ℕ × LNode)) :
    cellsOf (e :: l) = cellOf e :: cellsOf l := rfl

theorem bumpLastNext_mem_last (p1 : ℕ) :
    ∀ (zs0 : List (ℕ × LNode)) (q : ℕ) (nq : LNode),
    (q, { nq with next_cell := some p1 }) ∈
      bumpLastNext (zs0 ++ [(q, nq)]) p1 := by
  intro zs0
  induction zs0 with
  | nil =>
    intro q nq
    show _ ∈ [(q, { nq with next_cell := some p1 })]
    simp
  | cons e zs ih =>
    intro q nq
    cases zs with
    | nil =>
      show _ ∈ e :: bumpLastNext [(q, nq)] p1
      exact List.mem_cons_of_mem _ (by show _ ∈ [(q, _)]; simp)
    | cons w zs2 =>
      show _ ∈ e :: bumpLastNext ((w :: zs2) ++ [(q, nq)]) p1
      exact List.mem_cons_of_mem _ (ih q nq)

theorem bumpLastNext_mem_of_ne (p1 : ℕ) :
    ∀ (xs : List (ℕ × LNode)) (e : ℕ × LNode),
    e ∈ xs → (∀ l, xs.getLast? = some l → e.1 ≠ l.1) →
    e ∈ bumpLastNext xs p1 := by
  intro xs
  induction xs with
  | nil => intro e he _; simp at he
  | cons f rest ih =>
    intro e he hne
    cases rest with
    | nil =>
      rw [List.mem_singleton] at he
      subst he
      exact absurd rfl (hne e (by simp))
    | cons w rest2 =>
      rw [List.mem_cons] at he
      rcases he with rfl | he
      · exact List.mem_cons_self _ _
      · show e ∈ f :: bumpLastNext (w :: rest2) p1
        refine List.mem_cons_of_mem _ (ih e he ?_)
        intro l hl
        refine hne l ?_
        rw [List.getLast?_cons_cons]
        exact hl

theorem chained_insert (A B : List LCell) (c : LCell) (t : ℚ)
    (hch : ChainedL (A ++ c :: B)) (hlt : AllLt (A ++ c :: B))
    (h1 : c.left < t) (h2 : t < c.right) :
    ChainedL (A ++ ⟨c.left, t⟩ :: ⟨t, c.right⟩ :: B) ∧
    AllLt (A ++ ⟨c.left, t⟩ :: ⟨t, c.right⟩ :: B) := by
  constructor
  · unfold ChainedL at hch ⊢
    rw [List.chain'_append] at hch ⊢
    obtain ⟨hA, hcB, hbd⟩ := hch
    refine ⟨hA, ?_, ?_⟩
    · rw [List.chain'_cons, List.chain'_cons']
      rw [List.chain'_cons'] at hcB
      exact ⟨rfl, fun y hy => hcB.1 y hy, hcB.2⟩
    · intro x hx y hy
      rw [List.head?_cons, Option.mem_some_iff] at hy
      subst hy
      exact hbd x hx c (by simp)
  · intro d hd
    rw [List.mem_append, List.mem_cons, List.mem_cons] at hd
    rcases hd with hd | rfl | rfl | hd
    · exact hlt d (by simp [hd])
    · exact h1
    · exact h2
    · exact hlt d (by simp [hd])

theorem nodup_replace_two (X Y : List ℕ) (p a b : ℕ)
    (h : (X ++ p :: Y).Nodup) (haX : a ∉ X) (haY : a ∉ Y)
    (hbX : b ∉ X) (hbY : b ∉ Y) (hab : a ≠ b) :
    (X ++ a :: b :: Y).Nodup := by
  rw [List.nodup_append] at h ⊢
  obtain ⟨hX, hpY, hdisj⟩ := h
  obtain ⟨hpnotY, hY⟩ := List.nodup_cons.mp hpY
  refine ⟨hX, ?_, ?_⟩
  · rw [List.nodup_cons, List.nodup_cons]
    exact ⟨by simp [hab, haY], hbY, hY⟩
  · intro x hxX hxab
    rw [List.mem_cons, List.mem_cons] at hxab
    rcases hxab with rfl | rfl | hxY
    · exact haX hxX
    · exact hbX hxX
    · exact hdisj hxX (List.mem_cons_of_mem _ hxY)

theorem getLast?_cons_ne_none {α : Type} (a : α) :
    ∀ Y : List α, (a :: Y).getLast? ≠ none := by
  intro Y
  induction Y generalizing a with
  | nil => simp
  | cons b Y' ih =>
    rw [List.getLast?_cons_cons]
    exact ih b

theorem getLast?_append_cons {α : Type} (X : List α) (a : α) (Y : List α) :
    (X ++ a :: Y).getLast? = (a :: Y).getLast? := by
  rw [List.getLast?_append]
  cases hg : (a :: Y).getLast? with
  | none => exact absurd hg (getLast?_cons_ne_none a Y)
  | some g => rfl

theorem splice_wf (s : LState) (p : ℕ) (nd : LNode) (t : ℚ)
    (hwf : WFL s) (hget : s.get p = some nd)
    (hl : nd.leftI < t) (hr : t < nd.rightI) :
    WFL (spliceSplit s p nd t) := by
  obtain ⟨ps, hchain, htail, hne, hch, hlt, hnd, hbound, hlen, hcomp⟩ := hwf
  have hmem : (p, nd) ∈ ps := hcomp p nd hget
  obtain ⟨xs, ys, hps⟩ := List.append_of_mem hmem
  subst hps
  have hXY : (xs.map Prod.fst ++ p :: ys.map Prod.fst).Nodup := by
    simpa using hnd
  obtain ⟨hXnd, hpYnd, hdisj⟩ := List.nodup_append.mp hXY
  obtain ⟨hpY, hYnd⟩ := List.nodup_cons.mp hpYnd
  have hpX : p ∉ xs.map Prod.fst := fun hpx => hdisj hpx (by simp)
  have hpf : p < s.fresh := hbound (p, nd) (by simp)
  have hXlt : ∀ x ∈ xs.map Prod.fst, x < s.fresh := by
    intro x hx
    obtain ⟨e, he, rfl⟩ := List.mem_map.mp hx
    exact hbound e (List.mem_append_left _ he)
  have hYlt : ∀ y ∈ ys.map Prod.fst, y < s.fresh := by
    intro y hy
    obtain ⟨e, he, rfl⟩ := List.mem_map.mp hy
    exact hbound e (by simp [he])
  have hpinfo := chain_entry_prev s xs ys p nd none s.head hchain
  have hninfo := chain_entry_next s xs ys p nd none s.head hchain
  have hprev_lt : ∀ a, nd.prev_cell = some a →
      a < s.fresh ∧ a ∈ xs.map Prod.fst := by
    intro a ha
    rcases hpinfo with ⟨_, h0, _⟩ | ⟨q, nq, zs0, hxs, hpq⟩
    · rw [h0] at ha; exact Option.noConfusion ha
    · rw [hpq] at ha
      injection ha with ha
      subst ha
      have hqin : q ∈ xs.map Prod.fst := by rw [hxs]; simp
      exact ⟨hXlt q hqin, hqin⟩
  have hnext_lt : ∀ a, nd.next_cell = some a →
      a < s.fresh ∧ a ∈ ys.map Prod.fst := by
    intro a ha
    rcases hninfo with ⟨_, h0⟩ | ⟨q, nq, ys', hys, hnq⟩
    · rw [h0] at ha; exact Option.noConfusion ha
    · rw [hnq] at ha
      injection ha with ha
      subst ha
      have hqin : q ∈ ys.map Prod.fst := by rw [hys]; simp
      exact ⟨hYlt q hqin, hqin⟩
  have hprev_ne : ∀ a, a ∉ xs.map Prod.fst → nd.prev_cell ≠ some a :=
    fun a hna ha => hna (hprev_lt a ha).2
  have hnext_ne : ∀ a, a ∉ ys.map Prod.fst → nd.next_cell ≠ some a :=
    fun a hna ha => hna (hnext_lt a ha).2
  have hprev_ne_p : nd.prev_cell ≠ some p := hprev_ne p hpX
  have hnext_ne_p : nd.next_cell ≠ some p := hnext_ne p hpY
  have hprev_ne_f1 : nd.prev_cell ≠ some s.fresh := fun ha => by
    have := (hprev_lt _ ha).1; omega
  have hprev_ne_f2 : nd.prev_cell ≠ some (s.fresh + 1) := fun ha => by
    have := (hprev_lt _ ha).1; omega
  have hnext_ne_f1 : nd.next_cell ≠ some s.fresh := fun ha => by
    have := (hnext_lt _ ha).1; omega
  have hnext_ne_f2 : nd.next_cell ≠ some (s.fresh + 1) := fun ha => by
    have := (hnext_lt _ ha).1; omega
  have hchain2 := splice_chain s p nd t xs ys none s.head hchain hnd hbound
    (fun a ha => Option.noConfusion ha)
  refine ⟨bumpLastNext xs s.fresh ++
      (s.fresh, ⟨nd.leftI, t, some (s.fresh + 1), nd.prev_cell⟩) ::
      (s.fresh + 1, ⟨t, nd.rightI, nd.next_cell, some s.fresh⟩) ::
      bumpHeadPrev ys (s.fresh + 1), ?_, ?_, ?_, ?_, ?_, ?_, ?_, ?_, ?_⟩
  · -- the chain from the new head
    have hhead : (spliceSplit s p nd t).head =
        (if xs = [] then some s.fresh else s.head) := by
      show (if s.head = some p then some s.fresh else s.head) = _
      cases xs with
      | nil =>
        have hc := (cellChain_cons_inv s none s.head p nd ys hchain).1
        rw [if_pos hc, if_pos rfl]
      | cons f xs2 =>
        obtain ⟨g, gn⟩ := f
        have hc := (cellChain_cons_inv s none s.head g gn _ hchain).1
        have hgp : s.head ≠ some p := by
          rw [hc]
          intro he
          injection he with he
          exact hpX (by rw [← he]; simp)
        rw [if_neg hgp, if_neg (by simp)]
    rw [hhead]
    exact hchain2
  · -- the tail is the last leaf
    have hmap2 : (bumpLastNext xs s.fresh ++
        (s.fresh, (⟨nd.leftI, t, some (s.fresh + 1), nd.prev_cell⟩ : LNode)) ::
        (s.fresh + 1, (⟨t, nd.rightI, nd.next_cell, some s.fresh⟩ : LNode)) ::
        bumpHeadPrev ys (s.fresh + 1)).map Prod.fst =
        xs.map Prod.fst ++ s.fresh :: (s.fresh + 1) :: ys.map Prod.fst := by
      simp only [List.map_append, List.map_cons, bumpLastNext_fst,
        bumpHeadPrev_fst]
    rw [← List.getLast?_map, hmap2, getLast?_append_cons,
      List.getLast?_cons_cons]
    have htail2 : s.tail = (p :: ys.map Prod.fst).getLast? := by
      rw [htail, ← List.getLast?_map]
      simp only [List.map_append, List.map_cons]
      rw [getLast?_append_cons]
    show (if s.tail = some p then some (s.fresh + 1) else s.tail) = _
    cases hY : ys.map Prod.fst with
    | nil =>
      rw [hY] at htail2
      simp at htail2
      rw [if_pos htail2]
      simp
    | cons y0 Y' =>
      rw [hY] at htail2
      rw [List.getLast?_cons_cons] at htail2
      cases hg : (y0 :: Y').getLast? with
      | none => exact absurd hg (getLast?_cons_ne_none y0 Y')
      | some g =>
        rw [hg] at htail2
        have hgY : g ∈ ys.map Prod.fst := by
          rw [hY]
          exact mem_of_getLast_eq _ _ hg
        have hgp : g ≠ p := fun he => hpY (he ▸ hgY)
        have hne2 : ¬ s.tail = some p := by
          rw [htail2]
          intro he
          injection he with he
          exact hgp he
        rw [if_neg hne2, htail2, List.getLast?_cons_cons, hg]
  · simp
  · -- contiguity of the intervals
    have hcells2 : cellsOf (bumpLastNext xs s.fresh ++
        (s.fresh, (⟨nd.leftI, t, some (s.fresh + 1), nd.prev_cell⟩ : LNode)) ::
        (s.fresh + 1, (⟨t, nd.rightI, nd.next_cell, some s.fresh⟩ : LNode)) ::
        bumpHeadPrev ys (s.fresh + 1)) =
        cellsOf xs ++ (⟨nd.leftI, t⟩ : LCell) :: (⟨t, nd.rightI⟩ : LCell) ::
        cellsOf ys := by
      rw [cellsOf_append, cellsOf_cons, cellsOf_cons,
        bumpLastNext_cellsOf, bumpHeadPrev_cellsOf]
      rfl
    rw [hcells2]
    have hsrc : cellsOf (xs ++ (p, nd) :: ys) =
        cellsOf xs ++ (⟨nd.leftI, nd.rightI⟩ : LCell) :: cellsOf ys := by
      rw [cellsOf_append, cellsOf_cons]
      rfl
    exact (chained_insert (cellsOf xs) (cellsOf ys) ⟨nd.leftI, nd.rightI⟩ t
      (hsrc ▸ hch) (hsrc ▸ hlt) hl hr).1
  · -- every interval is proper
    have hcells2 : cellsOf (bumpLastNext xs s.fresh ++
        (s.fresh, (⟨nd.leftI, t, some (s.fresh + 1), nd.prev_cell⟩ : LNode)) ::
        (s.fresh + 1, (⟨t, nd.rightI, nd.next_cell, some s.fresh⟩ : LNode)) ::
        bumpHeadPrev ys (s.fresh + 1)) =
        cellsOf xs ++ (⟨nd.leftI, t⟩ : LCell) :: (⟨t, nd.rightI⟩ : LCell) ::
        cellsOf ys := by
      rw [cellsOf_append, cellsOf_cons, cellsOf_cons,
        bumpLastNext_cellsOf, bumpHeadPrev_cellsOf]
      rfl
    rw [hcells2]
    have hsrc : cellsOf (xs ++ (p, nd) :: ys) =
        cellsOf xs ++ (⟨nd.leftI, nd.rightI⟩ : LCell) :: cellsOf ys := by
      rw [cellsOf_append, cellsOf_cons]
      rfl
    exact (chained_insert (cellsOf xs) (cellsOf ys) ⟨nd.leftI, nd.rightI⟩ t
      (hsrc ▸ hch) (hsrc ▸ hlt) hl hr).2
  · -- distinct addresses
    have hmap2 : (bumpLastNext xs s.fresh ++
        (s.fresh, (⟨nd.leftI, t, some (s.fresh + 1), nd.prev_cell⟩ : LNode)) ::
        (s.fresh + 1, (⟨t, nd.rightI, nd.next_cell, some s.fresh⟩ : LNode)) ::
        bumpHeadPrev ys (s.fresh + 1)).map Prod.fst =
        xs.map Prod.fst ++ s.fresh :: (s.fresh + 1) :: ys.map Prod.fst := by
      simp only [List.map_append, List.map_cons, bumpLastNext_fst,
        bumpHeadPrev_fst]
    rw [hmap2]
    refine nodup_replace_two _ _ p _ _ hXY ?_ ?_ ?_ ?_ (by omega)
    · exact fun hx => by have := hXlt _ hx; omega
    · exact fun hy => by have := hYlt _ hy; omega
    · exact fun hx => by have := hXlt _ hx; omega
    · exact fun hy => by have := hYlt _ hy; omega
  · -- addresses below the new allocation counter
    intro e he
    show e.1 < s.fresh + 2
    have hm : e.1 ∈ (bumpLastNext xs s.fresh ++
        (s.fresh, (⟨nd.leftI, t, some (s.fresh + 1), nd.prev_cell⟩ : LNode)) ::
        (s.fresh + 1, (⟨t, nd.rightI, nd.next_cell, some s.fresh⟩ : LNode)) ::
        bumpHeadPrev ys (s.fresh + 1)).map Prod.fst :=
      List.mem_map_of_mem Prod.fst he
    rw [show (bumpLastNext xs s.fresh ++
        (s.fresh, (⟨nd.leftI, t, some (s.fresh + 1), nd.prev_cell⟩ : LNode)) ::
        (s.fresh + 1, (⟨t, nd.rightI, nd.next_cell, some s.fresh⟩ : LNode)) ::
        bumpHeadPrev ys (s.fresh + 1)).map Prod.fst =
        xs.map Prod.fst ++ s.fresh :: (s.fresh + 1) :: ys.map Prod.fst from by
      simp only [List.map_append, List.map_cons, bumpLastNext_fst,
        bumpHeadPrev_fst]] at hm
    rw [List.mem_append, List.mem_cons, List.mem_cons] at hm
    rcases hm with hm | hm | hm | hm
    · have := hXlt _ hm; omega
    · omega
    · omega
    · have := hYlt _ hm; omega
  · -- length bound
    show _ ≤ s.fresh + 2
    have h1 : (bumpLastNext xs s.fresh).length = xs.length := by
      have := congrArg List.length (bumpLastNext_fst s.fresh xs)
      simpa using this
    have h2 : (bumpHeadPrev ys (s.fresh + 1)).length = ys.length := by
      have := congrArg List.length (bumpHeadPrev_fst (s.fresh + 1) ys)
      simpa using this
    have h3 : (xs ++ (p, nd) :: ys).length ≤ s.fresh := hlen
    simp only [List.length_append, List.length_cons] at h3 ⊢
    rw [h1, h2]
    omega
  · -- completeness of the chain
    intro a nd0 hget2
    by_cases hap1 : a = s.fresh
    · subst hap1
      rw [splice_get_p1 s p nd t hprev_ne_f1 hnext_ne_f1] at hget2
      injection hget2 with hget2
      rw [← hget2]
      exact List.mem_append_right _ (List.mem_cons_self _ _)
    by_cases hap2 : a = s.fresh + 1
    · subst hap2
      rw [splice_get_p2 s p nd t hprev_ne_f2 hnext_ne_f2] at hget2
      injection hget2 with hget2
      rw [← hget2]
      exact List.mem_append_right _
        (List.mem_cons_of_mem _ (List.mem_cons_self _ _))
    by_cases hap : a = p
    · rw [hap] at hget2
      rw [splice_get_p_none s p nd t (by omega) (by omega)
        hprev_ne_p hnext_ne_p] at hget2
      exact Option.noConfusion hget2
    by_cases haprev : nd.prev_cell = some a
    · rcases hpinfo with ⟨_, h0, _⟩ | ⟨q, nq, zs0, hxs, hpq⟩
      · rw [h0] at haprev; exact Option.noConfusion haprev
      · have hqa : q = a := by
          rw [hpq] at haprev
          injection haprev
        subst hqa
        have hqin : (q, nq) ∈ xs := by rw [hxs]; simp
        have hgq : s.get q = some nq :=
          chain_mem_get s _ none s.head hchain (q, nq)
            (List.mem_append_left _ hqin)
        have hqX : q ∈ xs.map Prod.fst := List.mem_map_of_mem Prod.fst hqin
        have hq_ne_p : q ≠ p := fun he => hpX (he ▸ hqX)
        have hqY : q ∉ ys.map Prod.fst := fun h2 =>
          hdisj hqX (List.mem_cons_of_mem _ h2)
        have hnn : nd.next_cell ≠ some q := hnext_ne q hqY
        have hqf : q < s.fresh := hXlt q hqX
        rw [splice_get_qprev s p nd t q nq hpq hgq hq_ne_p
          (by omega) (by omega) hnn] at hget2
        injection hget2 with hget2
        rw [← hget2]
        refine List.mem_append_left _ ?_
        rw [hxs]
        exact bumpLastNext_mem_last s.fresh zs0 q nq
    by_cases hanext : nd.next_cell = some a
    · rcases hninfo with ⟨_, h0⟩ | ⟨q, nq, ys', hys, hnq⟩
      · rw [h0] at hanext; exact Option.noConfusion hanext
      · have hqa : q = a := by
          rw [hnq] at hanext
          injection hanext
        subst hqa
        have hqin : (q, nq) ∈ ys := by rw [hys]; simp
        have hgq : s.get q = some nq :=
          chain_mem_get s _ none s.head hchain (q, nq) (by simp [hqin])
        have hqY : q ∈ ys.map Prod.fst := List.mem_map_of_mem Prod.fst hqin
        have hq_ne_p : q ≠ p := fun he => hpY (he ▸ hqY)
        have hqX : q ∉ xs.map Prod.fst := fun h2 =>
          hdisj h2 (List.mem_cons_of_mem _ hqY)
        have hpn : nd.prev_cell ≠ some q := hprev_ne q hqX
        have hqf : q < s.fresh := hYlt q hqY
        rw [splice_get_qnext s p nd t q nq hnq hgq hq_ne_p
          (by omega) (by omega) hpn] at hget2
        injection hget2 with hget2
        rw [← hget2]
        refine List.mem_append_right _
          (List.mem_cons_of_mem _ (List.mem_cons_of_mem _ ?_))
        rw [hys]
        show _ ∈ (q, { nq with prev_cell := some (s.fresh + 1) }) :: ys'
        exact List.mem_cons_self _ _
    · rw [splice_get_old s p nd t a hap hap1 hap2 haprev hanext] at hget2
      have hmem0 := hcomp a nd0 hget2
      rw [List.mem_append, List.mem_cons] at hmem0
      rcases hmem0 with hmx | heq | hmy
      · refine List.mem_append_left _
          (bumpLastNext_mem_of_ne s.fresh xs (a, nd0) hmx ?_)
        intro l hlast
        rcases hpinfo with ⟨hxsnil, _, _⟩ | ⟨q, nq, zs0, hxs, hpq⟩
        · rw [hxsnil] at hmx; simp at hmx
        · rw [hxs, List.getLast?_concat] at hlast
          injection hlast with hlast
          rw [← hlast]
          intro he
          have he2 : a = q := he
          exact haprev (by rw [hpq, he2])
      · exact absurd (congrArg Prod.fst heq) hap
      · refine List.mem_append_right _
          (List.mem_cons_of_mem _ (List.mem_cons_of_mem _ ?_))
        cases hys2 : ys with
        | nil => rw [hys2] at hmy; simp at hmy
        | cons e0 ys2 =>
          obtain ⟨q0, nq0⟩ := e0
          rw [hys2] at hmy
          rw [List.mem_cons] at hmy
          rcases hmy with heq0 | hmy2
          · rcases hninfo with ⟨hysnil, _⟩ | ⟨q, nq, ys', hys, hnq⟩
            · rw [hysnil] at hys2; exact absurd hys2 (by simp)
            · rw [hys] at hys2
              injection hys2 with h1 h2
              have hq0 : q = q0 := congrArg Prod.fst h1
              have ha0 : a = q0 := congrArg Prod.fst heq0
              exact absurd (by rw [hnq, hq0, ← ha0] :
                nd.next_cell = some a) hanext
          · show _ ∈ (q0, { nq0 with prev_cell := some (s.fresh + 1) }) :: ys2
            exact List.mem_cons_of_mem _ hmy2

theorem lreachable_wf (s : LState) (h : LReachable s) : WFL s := by
  induction h with
  | init a b hab =>
    refine ⟨[(0, ⟨a, b, none, none⟩)], ?_, ?_, ?_, ?_, ?_, ?_, ?_, ?_, ?_⟩
    · exact CellChain.cons none 0 _ [] rfl rfl (CellChain.nil _)
    · rfl
    · simp
    · unfold ChainedL cellsOf
      simp
    · intro c hc
      unfold cellsOf at hc
      simp only [List.map_cons, List.map_nil, List.mem_singleton] at hc
      subst hc
      exact hab
    · simp
    · intro e he
      rw [List.mem_singleton] at he
      subst he
      show 0 < 1
      omega
    · show 1 ≤ 1
      omega
    · intro a0 nd0 hg0
      have hg1 : (if a0 = 0 then some (⟨a, b, none, none⟩ : LNode)
          else none) = some nd0 := hg0
      by_cases h0 : a0 = 0
      · rw [if_pos h0] at hg1
        injection hg1 with hg1
        rw [h0, ← hg1]
        simp
      · rw [if_neg h0] at hg1
        exact Option.noConfusion hg1
  | step s p nd t hs hget hl hr ih =>
    exact splice_wf s p nd t ih hget hl hr

/-- C5: in every reachable cage state, iterating the leaf list forward
with `operator++` from `cells.begin()` to `cells.end()` yields cells whose
left keyframe indices are strictly increasing (each cell also satisfying
`left_keyframe.index < right_keyframe.index` strictly), and iterating
backward with `operator--` from `cells.rbegin()` along the `prev_cell`
links yields exactly the reverse of that sequence. -/
theorem leaf_list_ordered (s : LState) (hreach : LReachable s) :
    List.Chain' (fun a b => a < b) ((forwardList s).map LNode.leftI) ∧
    (∀ nd ∈ forwardList s, nd.leftI < nd.rightI) ∧
    backwardList s = (forwardList s).reverse := by
  obtain ⟨ps, hchain, htail, hne, hch, hlt, hnd, hbound, hlen, hcomp⟩ :=
    lreachable_wf s hreach
  have hfwd : forwardList s = ps.map Prod.snd :=
    fwd_of_chain s ps none s.head s.fresh hchain hlen
  have hseg0 : PrevSeg s none ([] : List (ℕ × LNode)) none := by
    simp [PrevSeg]
  have hseg := chain_to_prevSeg s ps [] none s.head none hchain hseg0
  have htail2 : s.tail = (ps.getLast?).elim none (fun e => some e.1) := by
    rw [htail]
    cases ps.getLast? <;> rfl
  have hlen2 : ps.reverse.length ≤ s.fresh := by simpa using hlen
  have hbwd : backwardList s = (ps.reverse).map Prod.snd := by
    unfold backwardList
    rw [htail2]
    exact bwd_of_prevSeg s ps.reverse _ s.fresh (by simpa using hseg) hlen2
  refine ⟨?_, ?_, ?_⟩
  · rw [hfwd]
    have hmm : (ps.map Prod.snd).map LNode.leftI =
        (cellsOf ps).map LCell.left := by
      unfold cellsOf
      simp only [List.map_map]
      rfl
    rw [hmm, List.chain'_map]
    exact chained_strict_lt hch hlt
  · intro nd2 hnd2
    rw [hfwd] at hnd2
    obtain ⟨e, he, rfl⟩ := List.mem_map.mp hnd2
    exact hlt (cellOf e) (List.mem_map_of_mem cellOf he)
  · rw [hfwd, hbwd, List.map_reverse]

theorem lcage1W_reachable : LReachable lcage1W :=
  LReachable.step (linit 0 4) 0 ⟨0, 4, none, none⟩ 2
    (LReachable.init 0 4 (by decide)) rfl (by decide) (by decide)

/-- Witness for C5 on the concrete two-cell leaf list `lcage1W` (the 0..4
root cell split at index 2): both pointer traversals are evaluated on the
spliced heap. -/
theorem leaf_list_ordered_witness :
    LReachable lcage1W ∧
    (List.Chain' (fun a b => a < b)
        ((forwardList lcage1W).map LNode.leftI) ∧
      (∀ nd ∈ forwardList lcage1W, nd.leftI < nd.rightI) ∧
      backwardList lcage1W = (forwardList lcage1W).reverse) :=
  ⟨lcage1W_reachable, leaf_list_ordered lcage1W lcage1W_reachable⟩

end Unwind

